import Mathlib

/-!
Verification of the flexible-batches core: the chunking helper and the
exponential-backoff retry helper of `src/utils.ts`, and the `BatchProcessor`
scheduler of `src/batch-processor.ts` (sequential and bounded-concurrent
execution paths, per-item error containment, progress accounting).

Modelling conventions:
* JavaScript arrays are Lean `List`s; machine numbers used as counters and
  indices are `Nat` (they stay far below 2^53, where JS numbers are exact);
  the loop index of `chunk` is modelled as `Int` where the source allows the
  caller to pass a non-positive size.
* A JavaScript value of the caller's result type `R` is modelled as
  `Option β`: `none` is the JavaScript `null`, `some b` any other value.
  A processor of the declared interface type `ProcessorFunction<T, R>` whose
  `R` does not contain `null` is embedded as a function that never returns
  `Except.ok none`.
* Thrown values are an explicit error type; fallible code returns `Except`.
* Asynchrony: the sequential path of `process` is deterministic given a pure
  processor and is embedded as a pure function.  The bounded-concurrent path
  is embedded as a small-step interpreter driven by an explicit schedule of
  batch-settlement events, because the caller-supplied processor may suspend
  arbitrarily, making settlement order a genuine input of the semantics.
-/

namespace FlexibleBatches

universe u v w

/-! ## Chunking (`chunk` in `src/utils.ts`, `createBatches` in the scheduler)

The source is the loop
`for (let i = 0; i < array.length; i += size) chunks.push(array.slice(i, i + size))`.
For `size ≥ 1` each iteration takes the next `size` elements, which is the
well-founded recursion `chunk` below.  For `size ≤ 0` the index `i` never
advances past the array, so the loop does not terminate; that regime is
modelled exactly by the fuelled loop `chunkLoopGo` further down. -/

/-- Shallow embedding of `chunk(array, size)` from `src/utils.ts` for the
positive-size regime: repeatedly slice off the next `size` elements.  The
`size = 0` guard only serves termination; it lies outside the source's
domain (the fuelled model `chunkLoopGo` covers `size ≤ 0` faithfully). -/
def chunk {α : Type u} (array : List α) (size : Nat) : List (List α) :=
  if h : size = 0 ∨ array.length = 0 then []
  else array.take size :: chunk (array.drop size) size
termination_by array.length
decreasing_by
  push_neg at h
  simp only [List.length_drop]
  omega

/-- Shallow embedding of `BatchProcessor.createBatches`: its body is
character-for-character the same loop as `chunk`, applied to
`this.options.batchSize`. -/
def createBatches {α : Type u} (batchSize : Nat) (items : List α) : List (List α) :=
  chunk items batchSize

/-- Shallow embedding of `Array.prototype.slice(start, end)` with possibly
negative arguments: negative indices count from the end of the array, indices
are clamped to `[0, length]`, and the extracted count is never negative. -/
def jsSlice {α : Type u} (arr : List α) (start fin : Int) : List α :=
  (arr.drop (if start < 0 then max ((arr.length : Int) + start) 0
             else min start (arr.length : Int)).toNat).take
    ((if fin < 0 then max ((arr.length : Int) + fin) 0
      else min fin (arr.length : Int)) -
     (if start < 0 then max ((arr.length : Int) + start) 0
      else min start (arr.length : Int))).toNat

/-- Fuelled embedding of the literal loop of `chunk` from `src/utils.ts`:
`for (let i = 0; i < array.length; i += size) chunks.push(array.slice(i, i + size))`.
This version is faithful for every integer `size`, including `size ≤ 0`
where the loop never terminates; `none` means the fuel ran out before the
loop exited. -/
def chunkLoopGo {α : Type u} (fuel : Nat) (arr : List α) (size i : Int)
    (acc : List (List α)) : Option (List (List α)) :=
  match fuel with
  | 0 => none
  | fuel + 1 =>
    if i < (arr.length : Int) then
      chunkLoopGo fuel arr size (i + size) (acc ++ [jsSlice arr i (i + size)])
    else
      some acc

/-- Termination predicate for the `chunk` loop: some finite fuel suffices for
the loop to exit and return a chunk list. -/
def chunkTerminates {α : Type u} (arr : List α) (size : Int) : Prop :=
  ∃ fuel r, chunkLoopGo fuel arr size 0 [] = some r

/-! ## Retry with exponential backoff (`retry` in `src/utils.ts`) -/

/-- Model of a JavaScript thrown value: an `Error` object carrying a message,
a non-`Error` value (carried as its string conversion), or `undefined`. -/
inductive JSThrown where
  | errObj (msg : String)
  | nonError (str : String)
  | undef
deriving DecidableEq, Repr

/-- Embedding of `error instanceof Error ? error : new Error(String(error))`. -/
def coerceToError : JSThrown → JSThrown
  | .errObj m => .errObj m
  | .nonError s => .errObj s
  | .undef => .errObj "undefined"

/-- Shallow embedding of the attempt loop of `retry` from `src/utils.ts`,
starting at attempt number `attempt` with `lastError` holding the already
coerced error of the previous attempt (if any).  The operation `fn` maps an
attempt number to that attempt's outcome.  Returns the final outcome, the
number of invocations of `fn` performed, and the list of waited backoff
delays in order.  When `attempt > maxAttempts` the loop body never runs and
the function throws `lastError!` (the stored error, or `undefined` when no
attempt ever ran). -/
def retryGo {β : Type v} (fn : Nat → Except JSThrown β)
    (maxAttempts baseDelay attempt : Nat) (lastError : Option JSThrown) :
    Except JSThrown β × Nat × List Nat :=
  if attempt > maxAttempts then
    (.error (lastError.getD .undef), 0, [])
  else
    match fn attempt with
    | .ok b => (.ok b, 1, [])
    | .error e =>
      let e' := coerceToError e
      if attempt = maxAttempts then
        (.error e', 1, [])
      else
        let r := retryGo fn maxAttempts baseDelay (attempt + 1) (some e')
        (r.1, r.2.1 + 1, baseDelay * 2 ^ (attempt - 1) :: r.2.2)
termination_by maxAttempts + 1 - attempt
decreasing_by
  simp_wf
  omega

/-- Embedding of `retry(fn, maxAttempts, baseDelay)`: the loop starts at
attempt 1 with no stored error. -/
def retry {β : Type v} (fn : Nat → Except JSThrown β) (maxAttempts baseDelay : Nat) :
    Except JSThrown β × Nat × List Nat :=
  retryGo fn maxAttempts baseDelay 1 none

/-- Embedding of a `retry(fn)` call relying on the declared defaults
`maxAttempts = 3` and `baseDelay = 1000`. -/
def retryDefaults {β : Type v} (fn : Nat → Except JSThrown β) :
    Except JSThrown β × Nat × List Nat :=
  retry fn 3 1000

/-! ## BatchProcessor configuration (`BatchOptions`, `DEFAULT_OPTIONS`)

Callbacks (`onProgress`, `onError`) are not stored in the option record;
their invocations are collected in explicit logs by the run models below. -/

/-- Embedding of the four data fields of `BatchOptions`. -/
structure BatchOptions where
  batchSize : Nat
  delay : Nat
  concurrency : Nat
  stopOnError : Bool
deriving DecidableEq, Repr

/-- Embedding of `DEFAULT_OPTIONS` from `src/batch-processor.ts`. -/
def DEFAULT_OPTIONS : BatchOptions :=
  ⟨10, 0, 1, false⟩

/-- Embedding of `Partial<BatchOptions>`: each field optionally present. -/
structure PartialBatchOptions where
  batchSize : Option Nat
  delay : Option Nat
  concurrency : Option Nat
  stopOnError : Option Bool
deriving DecidableEq, Repr

/-- The empty `Partial<BatchOptions>` object `{}`. -/
def emptyPartial : PartialBatchOptions :=
  ⟨none, none, none, none⟩

/-- Embedding of the object-spread merge `{ ...base, ...p }`: fields present
in `p` override those of `base`. -/
def mergeOptions (base : BatchOptions) (p : PartialBatchOptions) : BatchOptions :=
  ⟨p.batchSize.getD base.batchSize, p.delay.getD base.delay,
   p.concurrency.getD base.concurrency, p.stopOnError.getD base.stopOnError⟩

/-- Embedding of the constructor's option setup
`this.options = { ...DEFAULT_OPTIONS, ...options }`. -/
def initOptions (p : PartialBatchOptions) : BatchOptions :=
  mergeOptions DEFAULT_OPTIONS p

/-- Embedding of `updateOptions`: `this.options = { ...this.options, ...options }`. -/
def updateOptions (current : BatchOptions) (p : PartialBatchOptions) : BatchOptions :=
  mergeOptions current p

/-! ## Per-item processing and `processBatch`

A processor `f : α → Nat → Except JSThrown (Option β)` maps an item and its
absolute index to either a thrown value or a JavaScript result, where the
result `none` is the JavaScript `null`.  A processor of the declared
interface type whose result type does not contain `null` is embedded through
`liftProcessor`. -/

/-- Lift of a `null`-free processor into the JavaScript value model. -/
def liftProcessor {α : Type u} {β : Type v} (f : α → Nat → Except JSThrown β) :
    α → Nat → Except JSThrown (Option β) :=
  fun a i => (f a i).map some

/-- Embedding of one item's closure inside `processBatch`: on success the
value is kept; on failure the error is coerced, an `onError` record
`(actualError, item, index)` is emitted and, when `stopOnError` is set, the
coerced error is rethrown, otherwise the `null` sentinel stands in for the
item (`return null as R`). -/
def itemOutcome {α : Type u} {β : Type v} (f : α → Nat → Except JSThrown (Option β))
    (stopOnError : Bool) (item : α) (idx : Nat) :
    List (JSThrown × α × Nat) × Except JSThrown (Option β) :=
  match f item idx with
  | .ok r => ([], .ok r)
  | .error e =>
    ([(coerceToError e, item, idx)],
     if stopOnError then .error (coerceToError e) else .ok none)

/-- Embedding of `batch.map(async (item, index) => ...)`: the closures run
for every item of the batch, at absolute indices `idx, idx + 1, ...`. -/
def batchOutcomes {α : Type u} {β : Type v} (f : α → Nat → Except JSThrown (Option β))
    (stopOnError : Bool) : List α → Nat →
    List (List (JSThrown × α × Nat) × Except JSThrown (Option β))
  | [], _ => []
  | item :: rest, idx =>
    itemOutcome f stopOnError item idx :: batchOutcomes f stopOnError rest (idx + 1)

/-- Embedding of `BatchProcessor.processBatch(batch, startIndex)` with a pure
processor: every item closure runs (logging one `onError` record per failing
item, in index order); `Promise.all` rejects with the first item rejection
(only possible under `stopOnError`), else resolves with the per-item values,
from which `null` values are filtered out
(`results.filter((result) => result !== null)`). -/
def processBatch {α : Type u} {β : Type v} (f : α → Nat → Except JSThrown (Option β))
    (stopOnError : Bool) (batch : List α) (startIndex : Nat) :
    List (JSThrown × α × Nat) × Except JSThrown (List β) :=
  let outs := batchOutcomes f stopOnError batch startIndex
  ((outs.map Prod.fst).flatten,
   match outs.findSome? (fun o => match o.2 with | .error e => some e | .ok _ => none) with
   | some e => .error e
   | none => .ok ((outs.filterMap (fun o => o.2.toOption)).filterMap id))

/-! ## Sequential strategy of `process` (`concurrency === 1` branch) -/

/-- Embedding of the sequential loop of `BatchProcessor.process`: batches in
order, batch `i` processed at `startIndex = i * batchSize`; a successful
batch appends its results and then reports progress
`(results.length, total)`; a batch rejection (possible only under
`stopOnError`) is rethrown when `stopOnError` is set, else swallowed.
`plog` collects `onProgress` calls, `elog` collects `onError` calls. -/
def processSeqGo {α : Type u} {β : Type v} (f : α → Nat → Except JSThrown (Option β))
    (stopOnError : Bool) (batchSize total : Nat) :
    List (List α) → Nat → List β → List (Nat × Nat) → List (JSThrown × α × Nat) →
    List (Nat × Nat) × List (JSThrown × α × Nat) × Except JSThrown (List β)
  | [], _, acc, plog, elog => (plog, elog, .ok acc)
  | batch :: rest, i, acc, plog, elog =>
    let r := processBatch f stopOnError batch (i * batchSize)
    match r.2 with
    | .ok bres =>
      processSeqGo f stopOnError batchSize total rest (i + 1) (acc ++ bres)
        (plog ++ [(acc.length + bres.length, total)]) (elog ++ r.1)
    | .error e =>
      if stopOnError then (plog, elog ++ r.1, .error e)
      else processSeqGo f stopOnError batchSize total rest (i + 1) acc plog (elog ++ r.1)

/-- Embedding of `BatchProcessor.process(items)` in the sequential branch
(`concurrency === 1`): create the batches once, then run the loop. -/
def processSeq {α : Type u} {β : Type v} (opts : BatchOptions)
    (f : α → Nat → Except JSThrown (Option β)) (items : List α) :
    List (Nat × Nat) × List (JSThrown × α × Nat) × Except JSThrown (List β) :=
  processSeqGo f opts.stopOnError opts.batchSize items.length
    (createBatches opts.batchSize items) 0 [] [] []

/-! ## Reference behaviours of a sequential run, in input order -/

/-- Per-item `onError` log of a run in input order: each failing item
contributes one record carrying the coerced error, the item, and its
absolute index. -/
def elogSpec {α : Type u} {β : Type v} (f : α → Nat → Except JSThrown (Option β)) :
    List α → Nat → List (JSThrown × α × Nat)
  | [], _ => []
  | a :: l, i =>
    (match f a i with
     | .ok _ => []
     | .error e => [(coerceToError e, a, i)]) ++ elogSpec f l (i + 1)

/-- Collected results of a run in input order: each item whose processing
succeeds with a non-`null` value contributes that value. -/
def resSpec {α : Type u} {β : Type v} (f : α → Nat → Except JSThrown (Option β)) :
    List α → Nat → List β
  | [], _ => []
  | a :: l, i =>
    (match f a i with
     | .ok (some b) => [b]
     | _ => []) ++ resSpec f l (i + 1)

/-- Per-batch collected-result counts for the batch list, batch `i` starting
at absolute index `i * batchSize`. -/
def batchCounts {α : Type u} {β : Type v} (f : α → Nat → Except JSThrown (Option β))
    (batchSize : Nat) : List (List α) → Nat → List Nat
  | [], _ => []
  | b :: bs, i =>
    (resSpec f b (i * batchSize)).length :: batchCounts f batchSize bs (i + 1)

/-- Cumulative progress log built from per-batch counts, starting from `cnt`
already collected results. -/
def plogSpec (total : Nat) : Nat → List Nat → List (Nat × Nat)
  | _, [] => []
  | cnt, c :: cs => (cnt + c, total) :: plogSpec total (cnt + c) cs

/-- Concatenated per-batch collected results for a batch list, batch `i`
starting at absolute index `i * batchSize`. -/
def resBatches {α : Type u} {β : Type v} (f : α → Nat → Except JSThrown (Option β))
    (batchSize : Nat) : List (List α) → Nat → List β
  | [], _ => []
  | b :: bs, i => resSpec f b (i * batchSize) ++ resBatches f batchSize bs (i + 1)

/-- Concatenated per-batch `onError` logs for a batch list. -/
def elogBatches {α : Type u} {β : Type v} (f : α → Nat → Except JSThrown (Option β))
    (batchSize : Nat) : List (List α) → Nat → List (JSThrown × α × Nat)
  | [], _ => []
  | b :: bs, i => elogSpec f b (i * batchSize) ++ elogBatches f batchSize bs (i + 1)

/-! ## Sequential run with `updateOptions` calls while `process` is suspended

The source re-reads `this.options.batchSize` for each batch's `startIndex`
(line 47) and `this.options.stopOnError` / `this.options.onError` per item
(lines 108-110), while `createBatches` and the loop's destructured
`concurrency`, `delay` and `stopOnError` (lines 37-38, 52, 56) are fixed at
entry.  `upd i` is the argument of an `updateOptions` call made while the
run is suspended in the inter-batch `sleep(delay)` following batch `i`
(`none` when no update happens there); such a suspension exists only when
the entry `delay` is positive and batches remain, exactly as in the source. -/

/-- Sequential `process` loop with mid-run option updates; `cur` is the
current value of `this.options`. -/
def processSeqUpdGo {α : Type u} {β : Type v} (f : α → Nat → Except JSThrown (Option β))
    (entry : BatchOptions) (upd : Nat → Option PartialBatchOptions) (total : Nat) :
    List (List α) → Nat → BatchOptions → List β → List (Nat × Nat) →
    List (JSThrown × α × Nat) →
    List (Nat × Nat) × List (JSThrown × α × Nat) × Except JSThrown (List β)
  | [], _, _, acc, plog, elog => (plog, elog, .ok acc)
  | batch :: rest, i, cur, acc, plog, elog =>
    let r := processBatch f cur.stopOnError batch (i * cur.batchSize)
    match r.2 with
    | .ok bres =>
      let cur' :=
        if 0 < entry.delay then
          if rest.isEmpty then cur
          else match upd i with
            | some p => mergeOptions cur p
            | none => cur
        else cur
      processSeqUpdGo f entry upd total rest (i + 1) cur' (acc ++ bres)
        (plog ++ [(acc.length + bres.length, total)]) (elog ++ r.1)
    | .error e =>
      if entry.stopOnError then (plog, elog ++ r.1, .error e)
      else processSeqUpdGo f entry upd total rest (i + 1) cur acc plog (elog ++ r.1)

/-- Sequential `process(items)` with mid-run option updates: batches are
created once from the entry options; `this.options` starts at the entry
options. -/
def processSeqUpd {α : Type u} {β : Type v} (entry : BatchOptions)
    (upd : Nat → Option PartialBatchOptions)
    (f : α → Nat → Except JSThrown (Option β)) (items : List α) :
    List (Nat × Nat) × List (JSThrown × α × Nat) × Except JSThrown (List β) :=
  processSeqUpdGo f entry upd items.length (createBatches entry.batchSize items) 0 entry [] [] []

/-! ## Bounded-concurrent strategy of `process` (`concurrency > 1` branch)

The orchestration loop of `processConcurrent` launches batches up to the
concurrency limit, pacing launches with `sleep(delay)`, then awaits
`Promise.race(activeBatches)`.  Each launched batch's promise chain
(`processBatch(...).then(push results; report progress).catch(rethrow when
stopOnError).finally(remove from activeBatches)`) settles at a time
determined by the caller-supplied processor's own suspensions, so settlement
order is an input of the semantics: the interpreter is driven by a schedule,
one window (a list of batch ordinals settling, in order) per suspension of
the orchestration loop.  A `Promise.race` call captures the promises in the
set at call time and is decided by the first of them to settle afterwards; a
chain that rejects while no pending race has captured it (during a
`sleep(delay)` window, or later in a race window already decided by an
earlier settlement) has been removed from `activeBatches` by its `finally`
handler by the time the loop next calls `Promise.race`, so its rejection is
never observed by the loop.  `none` means the schedule ran out, supplied an
invalid window (an ordinal not in flight, a duplicate, or an empty race
window), or the fuel was exhausted; such runs decide nothing. -/

/-- Run state of one `processConcurrent` call: the launch cursor
(`batchIndex`), the in-flight set (`activeBatches`, as launch-ordered
ordinals), the ordinals already settled (in settlement order), the shared
result accumulator, and the two callback logs. -/
structure ConcSt (α : Type u) (β : Type v) where
  next : Nat
  active : List Nat
  settled : List Nat
  results : List β
  plog : List (Nat × Nat)
  elog : List (JSThrown × α × Nat)

/-- Settlement of batch `j`'s promise chain: a resolving `processBatch`
runs the `then` handler (append results, report progress); a rejecting one
skips it and rejects the chain exactly when `stopOnError` is set (the
`catch` handler rethrows); either way the `finally` handler removes the
chain from the in-flight set.  The `onError` records of the batch's items
are delivered at settlement.  Returns the new state and whether the chain
rejected. -/
def settleOne {α : Type u} {β : Type v}
    (outcome : Nat → List (JSThrown × α × Nat) × Except JSThrown (List β))
    (stopOnError : Bool) (total : Nat) (st : ConcSt α β) (j : Nat) : ConcSt α β × Bool :=
  match (outcome j).2 with
  | .ok rs =>
    (⟨st.next, st.active.erase j, st.settled ++ [j], st.results ++ rs,
      st.plog ++ [(st.results.length + rs.length, total)], st.elog ++ (outcome j).1⟩, false)
  | .error _ =>
    (⟨st.next, st.active.erase j, st.settled ++ [j], st.results,
      st.plog, st.elog ++ (outcome j).1⟩, stopOnError)

/-- Settle a list of batches in order, dropping rejection flags (no race has
captured these chains, or the race was already decided). -/
def settleMany {α : Type u} {β : Type v}
    (outcome : Nat → List (JSThrown × α × Nat) × Except JSThrown (List β))
    (stopOnError : Bool) (total : Nat) : ConcSt α β → List Nat → ConcSt α β
  | st, [] => st
  | st, j :: rest =>
    settleMany outcome stopOnError total (settleOne outcome stopOnError total st j).1 rest

/-- Settle the batches of a race window in order.  The race was captured
before any of them settled, so it is decided by the first: if that chain
rejects, the orchestration loop's `await` throws that error; all later
settlements of the window still apply their effects but their rejections
are no longer observed. -/
def settleWindow {α : Type u} {β : Type v}
    (outcome : Nat → List (JSThrown × α × Nat) × Except JSThrown (List β))
    (stopOnError : Bool) (total : Nat) (st : ConcSt α β) (w : List Nat) :
    ConcSt α β × Option JSThrown :=
  match w with
  | [] => (st, none)
  | j :: rest =>
    let p := settleOne outcome stopOnError total st j
    (settleMany outcome stopOnError total p.1 rest,

     if p.2 then
       match (outcome j).2 with
       | .error e => some e
       | .ok _ => none
     else none)

/-- A settlement window is valid when every ordinal is currently in flight
and none repeats. -/
def validWindow (active w : List Nat) : Bool :=
  w.all (fun j => active.contains j) && decide w.Nodup

/-- Embedding of the inner launch loop of `processConcurrent`: start batches
while the in-flight set is below the concurrency limit and batches remain;
after each launch except the last overall, a positive `delay` suspends the
loop in `sleep(delay)`, during which scheduled chains may settle
unobserved. -/
def launchLoop {α : Type u} {β : Type v}
    (outcome : Nat → List (JSThrown × α × Nat) × Except JSThrown (List β))
    (stopOnError : Bool) (N conc delay total : Nat) (st : ConcSt α β)
    (sched : List (List Nat)) : Option (ConcSt α β × List (List Nat)) :=
  if h : st.active.length < conc ∧ st.next < N then
    let st1 : ConcSt α β :=
      ⟨st.next + 1, st.active ++ [st.next], st.settled, st.results, st.plog, st.elog⟩
    if 0 < delay ∧ st1.next < N then
      match sched with
      | [] => none
      | w :: sched' =>
        if validWindow st1.active w then
          launchLoop outcome stopOnError N conc delay total
            (settleMany outcome stopOnError total st1 w) sched'
        else none
    else
      launchLoop outcome stopOnError N conc delay total st1 sched
  else some (st, sched)
termination_by N - st.next
decreasing_by
  · have hpres : ∀ (w : List Nat) (s : ConcSt α β),
        (settleMany outcome stopOnError total s w).next = s.next := by
      intro w
      induction w with
      | nil => intro s; rfl
      | cons j ws ih =>
        intro s
        rw [settleMany, ih]
        rw [settleOne]
        cases (outcome j).2 <;> rfl
    simp_wf
    rw [hpres]
    simp
    omega
  · simp_wf
    omega

/-- Embedding of the orchestration loop of `processConcurrent`: while
batches remain to start or chains remain in flight, launch up to the limit,
then await `Promise.race` over the in-flight set; the race is decided by
the first settlement of its window, and a rejection deciding it propagates
out of `process`.  Returns the final state and the propagated error, if
any. -/
def orchLoop {α : Type u} {β : Type v}
    (outcome : Nat → List (JSThrown × α × Nat) × Except JSThrown (List β))
    (stopOnError : Bool) (N conc delay total : Nat) :
    Nat → ConcSt α β → List (List Nat) → Option (ConcSt α β × Option JSThrown)
  | 0, _, _ => none
  | fuel + 1, st, sched =>
    if st.next < N ∨ st.active ≠ [] then
      match launchLoop outcome stopOnError N conc delay total st sched with
      | none => none
      | some (st1, sched1) =>
        if st1.active.isEmpty then
          -- `Promise.race` is skipped; with `conc ≥ 1` an empty in-flight set
          -- here means no batches remain, so the loop exits.
          some (st1, none)
        else
          match sched1 with
          | [] => none
          | w :: sched2 =>
            if w.isEmpty then none
            else if validWindow st1.active w then
              let p := settleWindow outcome stopOnError total st1 w
              match p.2 with
              | some e => some (p.1, some e)
              | none =>
                orchLoop outcome stopOnError N conc delay total fuel p.1 sched2
            else none
    else some (st, none)

/-- Per-ordinal batch operation of one `process` call: batch `j` of the
batch list, processed at `startIndex = j * batchSize`. -/
def batchOutcome {α : Type u} {β : Type v} (opts : BatchOptions)
    (f : α → Nat → Except JSThrown (Option β)) (batches : List (List α)) (j : Nat) :
    List (JSThrown × α × Nat) × Except JSThrown (List β) :=
  processBatch f opts.stopOnError (batches.getD j []) (j * opts.batchSize)

/-- Embedding of `BatchProcessor.process(items)` in the bounded-concurrent
branch (`concurrency > 1`), driven by a settlement schedule. -/
def processConc {α : Type u} {β : Type v} (opts : BatchOptions)
    (f : α → Nat → Except JSThrown (Option β)) (items : List α)
    (fuel : Nat) (sched : List (List Nat)) : Option (ConcSt α β × Option JSThrown) :=
  let batches := createBatches opts.batchSize items
  orchLoop (batchOutcome opts f batches) opts.stopOnError batches.length
    opts.concurrency opts.delay items.length fuel ⟨0, [], [], [], [], []⟩ sched

/-- Results a settling batch operation appends: its resolution value, or
nothing when it rejected (the `then` handler is skipped). -/
def okList {α : Type u} {β : Type v}
    (o : List (JSThrown × α × Nat) × Except JSThrown (List β)) : List β :=
  match o.2 with
  | .ok rs => rs
  | .error _ => []

/-- Whether a batch operation resolves (its `then` handler runs). -/
def isOkB {α : Type u} {β : Type v}
    (o : List (JSThrown × α × Nat) × Except JSThrown (List β)) : Bool :=
  match o.2 with
  | .ok _ => true
  | .error _ => false

/-- Invariant of the bounded-concurrent run state: the launched ordinals are
exactly the in-flight ones plus the settled ones; the accumulator, error log
and progress log are determined by the settlement order; progress counts are
monotone, always carry the input length as total, number one per resolved
batch, and the latest one equals the current accumulator length. -/
structure ConcInv {α : Type u} {β : Type v}
    (outcome : Nat → List (JSThrown × α × Nat) × Except JSThrown (List β))
    (N total : Nat) (st : ConcSt α β) : Prop where
  perm : (st.active ++ st.settled).Perm (List.range st.next)
  nextLe : st.next ≤ N
  resultsEq : st.results = (st.settled.map (fun j => okList (outcome j))).flatten
  elogEq : st.elog = (st.settled.map (fun j => (outcome j).1)).flatten
  plogLen : st.plog.length = (st.settled.filter (fun j => isOkB (outcome j))).length
  plogTotal : ∀ p ∈ st.plog, p.2 = total
  plogMono : List.Chain' (fun x y : Nat × Nat => x.1 ≤ y.1) st.plog
  plogLast : st.plog.getLast? = some (st.results.length, total) ∨
    (st.plog = [] ∧ st.results = [])

theorem chunk_nil {α : Type u} (size : Nat) : chunk ([] : List α) size = [] := by
  rw [chunk.eq_def]
  simp

theorem chunk_cons {α : Type u} (array : List α) (size : Nat)
    (h1 : size ≠ 0) (h2 : array ≠ []) :
    chunk array size = array.take size :: chunk (array.drop size) size := by
  rw [chunk.eq_def]
  have : array.length ≠ 0 := by
    simpa [List.length_eq_zero] using h2
  simp [h1, this]

/-- Concatenating the chunks reconstructs the original list. -/
theorem chunk_flatten {α : Type u} (size : Nat) (hs : 1 ≤ size) (array : List α) :
    (chunk array size).flatten = array := by
  generalize hn : array.length = n
  induction n using Nat.strong_induction_on generalizing array with
  | _ n ih =>
    by_cases he : array = []
    · subst he
      simp [chunk_nil]
    · have hpos : 0 < array.length := List.length_pos.mpr he
      have hlen : (array.drop size).length < n := by
        simp only [List.length_drop]
        omega
      rw [chunk_cons _ _ (by omega) he, List.flatten_cons,
        ih (array.drop size).length hlen (array.drop size) rfl, List.take_append_drop]

/-- Number of chunks is the ceiling of length over size. -/
theorem chunk_length {α : Type u} (size : Nat) (hs : 1 ≤ size) (array : List α) :
    (chunk array size).length = (array.length + size - 1) / size := by
  generalize hn : array.length = n
  induction n using Nat.strong_induction_on generalizing array with
  | _ n ih =>
    by_cases he : array = []
    · subst he
      simp only [List.length_nil] at hn
      subst hn
      rw [chunk_nil]
      have h0 : 0 + size - 1 = size - 1 := by omega
      rw [List.length_nil, h0, Nat.div_eq_of_lt (by omega)]
    · have hpos : 0 < array.length := List.length_pos.mpr he
      have hlen : (array.drop size).length < n := by
        simp only [List.length_drop]
        omega
      rw [chunk_cons _ _ (by omega) he, List.length_cons,
        ih (array.drop size).length hlen (array.drop size) rfl]
      simp only [List.length_drop, hn]
      have hsplit : n + size - 1 = (n - 1) + 1 * size := by omega
      rw [hsplit, Nat.add_mul_div_right _ _ (by omega : 0 < size)]
      rcases le_or_lt n size with hle | hlt
      · have h1 : n - size = 0 := by omega
        rw [h1]
        have h2 : 0 + size - 1 = size - 1 := by omega
        rw [h2, Nat.div_eq_of_lt (by omega), Nat.div_eq_of_lt (by omega)]
      · have h2 : n - size + size - 1 = (n - 1 - size) + 1 * size := by omega
        rw [h2, Nat.add_mul_div_right _ _ (by omega : 0 < size)]
        have h3 : (n - 1 - size) / size + 1 = (n - 1) / size := by
          have h4 : n - 1 = (n - 1 - size) + 1 * size := by omega
          conv_rhs => rw [h4, Nat.add_mul_div_right _ _ (by omega : 0 < size)]
        omega

/-- Every chunk except possibly the last has exactly `size` elements. -/
theorem chunk_dropLast_length {α : Type u} (size : Nat) (hs : 1 ≤ size) (array : List α) :
    ∀ c ∈ (chunk array size).dropLast, c.length = size := by
  generalize hn : array.length = n
  induction n using Nat.strong_induction_on generalizing array with
  | _ n ih =>
    by_cases he : array = []
    · subst he
      simp [chunk_nil]
    · have hpos : 0 < array.length := List.length_pos.mpr he
      have hlen : (array.drop size).length < n := by
        simp only [List.length_drop]
        omega
      rw [chunk_cons _ _ (by omega) he]
      by_cases hcase : chunk (array.drop size) size = []
      · simp [hcase]
      · rw [List.dropLast_cons_of_ne_nil hcase]
        intro c hc
        rcases List.mem_cons.mp hc with hc | hc
        · subst hc
          rw [List.length_take]
          -- the tail chunk list is nonempty, so `size < array.length`
          have hdropne : array.drop size ≠ [] := by
            intro hnil
            rw [hnil, chunk_nil] at hcase
            exact hcase rfl
          have hlt : size < array.length := by
            by_contra hge
            exact hdropne (List.drop_eq_nil_of_le (by omega))
          omega
        · exact ih (array.drop size).length hlen (array.drop size) rfl c hc

/-- The last chunk of a nonempty list has `n mod size` elements when that is
nonzero, else exactly `size` elements. -/
theorem chunk_getLast_length {α : Type u} (size : Nat) (hs : 1 ≤ size) (array : List α)
    (he : array ≠ []) :
    ∃ last, (chunk array size).getLast? = some last ∧
      last.length = (if array.length % size = 0 then size else array.length % size) := by
  generalize hn : array.length = n
  induction n using Nat.strong_induction_on generalizing array with
  | _ n ih =>
    have hpos : 0 < array.length := List.length_pos.mpr he
    rw [chunk_cons _ _ (by omega) he]
    by_cases hcase : chunk (array.drop size) size = []
    · -- last chunk: the whole remaining array (length ≤ size)
      have hdropnil : array.drop size = [] := by
        by_contra hne
        rw [chunk_cons _ _ (by omega) hne] at hcase
        exact absurd hcase (by simp)
      have hle : array.length ≤ size := List.drop_eq_nil_iff.mp hdropnil
      refine ⟨array.take size, by simp [hcase], ?_⟩
      rw [List.length_take, hn] at *
      rcases Nat.lt_or_ge n size with hlt | hge
      · have hmod : n % size = n := Nat.mod_eq_of_lt hlt
        rw [hmod, if_neg (by omega)]
        omega
      · have heq : n = size := by omega
        subst heq
        rw [if_pos (Nat.mod_self n)]
        omega
    · -- recurse into the tail
      have hdropne : array.drop size ≠ [] := by
        intro hnil
        rw [hnil, chunk_nil] at hcase
        exact hcase rfl
      have hlt : size < array.length := by
        by_contra hge
        exact hdropne (List.drop_eq_nil_of_le (by omega))
      have hlen : (array.drop size).length < n := by
        simp only [List.length_drop]
        omega
      obtain ⟨last, hl1, hl2⟩ := ih (array.drop size).length hlen (array.drop size) hdropne rfl
      obtain ⟨t, ts, hts⟩ := List.exists_cons_of_ne_nil hcase
      refine ⟨last, ?_, ?_⟩
      · rw [hts, List.getLast?_cons_cons, ← hts]
        exact hl1
      · rw [hl2, List.length_drop, hn]
        have hmod : (n - size) % size = n % size := by
          have h4 : n = (n - size) + size := by omega
          conv_rhs => rw [h4, Nat.add_mod_right]
        rw [hmod]

/-! ## The `chunk` loop for non-positive sizes -/

/-- With `size ≤ 0` and a nonempty array, the loop index never advances past
the array: no amount of fuel makes the loop exit. -/
theorem chunkLoopGo_nonpos_eq_none {α : Type u} (arr : List α) (size : Int)
    (hsz : size ≤ 0) (hne : arr ≠ []) :
    ∀ (fuel : Nat) (i : Int), i ≤ 0 → ∀ acc, chunkLoopGo fuel arr size i acc = none := by
  intro fuel
  induction fuel with
  | zero =>
    intro i hi acc
    rfl
  | succ fuel ih =>
    intro i hi acc
    have hlen : 0 < arr.length := List.length_pos.mpr hne
    rw [chunkLoopGo, if_pos (by omega : i < (arr.length : Int))]
    exact ih (i + size) (by omega) _

/-- The `chunk` loop on a nonempty array with `size ≤ 0` never terminates. -/
theorem chunk_nonpos_not_terminates {α : Type u} (arr : List α) (size : Int)
    (hsz : size ≤ 0) (hne : arr ≠ []) : ¬ chunkTerminates arr size := by
  rintro ⟨fuel, r, hr⟩
  rw [chunkLoopGo_nonpos_eq_none arr size hsz hne fuel 0 le_rfl []] at hr
  cases hr

/-- The `chunk` loop on an empty array exits immediately, for any size. -/
theorem chunkLoop_nil_terminates {α : Type u} (size : Int) :
    chunkLoopGo 1 ([] : List α) size 0 [] = some [] := by
  rw [chunkLoopGo]
  simp

/-- For a nonnegative start inside the array and a positive count,
`arr.slice(i, i + size)` is take-after-drop. -/
theorem jsSlice_take_drop {α : Type u} (arr : List α) (i size : Nat)
    (hi : i < arr.length) (hs : 1 ≤ size) :
    jsSlice arr (i : Int) ((i : Int) + (size : Int)) = (arr.drop i).take size := by
  unfold jsSlice
  have h1 : ¬ ((i : Int) < 0) := by omega
  have h2 : ¬ ((i : Int) + (size : Int) < 0) := by omega
  rw [if_neg h1, if_neg h2]
  have hmin1 : min (i : Int) (arr.length : Int) = (i : Int) := by omega
  rw [hmin1]
  rcases le_or_lt ((i : Int) + size) (arr.length : Int) with hle2 | hlt2
  · have hmin2 : min ((i : Int) + size) (arr.length : Int) = (i : Int) + size := by omega
    rw [hmin2]
    have hitn : ((i : Int)).toNat = i := by omega
    have ht : ((i : Int) + size - i).toNat = size := by omega
    rw [hitn, ht]
  · have hmin2 : min ((i : Int) + size) (arr.length : Int) = (arr.length : Int) := by omega
    rw [hmin2]
    have hitn : ((i : Int)).toNat = i := by omega
    have ht : ((arr.length : Int) - i).toNat = arr.length - i := by omega
    rw [hitn, ht]
    rw [List.take_of_length_le (by simp), List.take_of_length_le (by simp; omega)]

/-- With positive size and enough fuel, the literal loop agrees with the
recursive `chunk` on the not-yet-visited suffix. -/
theorem chunkLoopGo_pos {α : Type u} (arr : List α) (size : Nat) (hs : 1 ≤ size) :
    ∀ (fuel i : Nat), arr.length - i < fuel → ∀ acc,
      chunkLoopGo fuel arr (size : Int) (i : Int) acc =
        some (acc ++ chunk (arr.drop i) size) := by
  intro fuel
  induction fuel with
  | zero =>
    intro i hi acc
    omega
  | succ fuel ih =>
    intro i hi acc
    rcases lt_or_ge i arr.length with hlt | hge
    · rw [chunkLoopGo, if_pos (by omega : (i : Int) < (arr.length : Int)),
        jsSlice_take_drop arr i size hlt hs]
      have hcast : (i : Int) + (size : Int) = ((i + size : Nat) : Int) := by omega
      rw [hcast, ih (i + size) (by omega) _]
      have hdropne : arr.drop i ≠ [] := by
        intro hnil
        have := List.drop_eq_nil_iff.mp hnil
        omega
      rw [chunk_cons _ _ (by omega) hdropne]
      simp only [List.drop_drop]
      have hik : i + size = size + i := by omega
      rw [hik, List.append_assoc]
      rfl
    · rw [chunkLoopGo, if_neg (by omega : ¬ ((i : Int) < (arr.length : Int)))]
      have hdropnil : arr.drop i = [] := List.drop_eq_nil_of_le hge
      rw [hdropnil, chunk_nil, List.append_nil]

/-- With positive size, the literal loop terminates and returns exactly the
chunks computed by the recursive `chunk`. -/
theorem chunkLoop_eq_chunk {α : Type u} (arr : List α) (size : Nat) (hs : 1 ≤ size) :
    chunkLoopGo (arr.length + 1) arr (size : Int) 0 [] = some (chunk arr size) := by
  have h := chunkLoopGo_pos arr size hs (arr.length + 1) 0 (by omega) []
  simpa using h

/-! ## Retry helper -/

/-- If every attempt from `a` up to (excluding) `k` fails and attempt `k`
succeeds, the loop started at attempt `a` returns attempt `k`'s value after
exactly `k + 1 - a` invocations, having waited the backoff delays of
attempts `a .. k-1` in order. -/
theorem retryGo_first_success {β : Type v} (fn : Nat → Except JSThrown β)
    (maxAttempts baseDelay k : Nat) (b : β) (hk : fn k = .ok b)
    (hkmax : k ≤ maxAttempts) :
    ∀ (a : Nat), 1 ≤ a → a ≤ k → (∀ j, a ≤ j → j < k → ∃ e, fn j = .error e) →
      ∀ le, retryGo fn maxAttempts baseDelay a le =
        (.ok b, k + 1 - a,
         (List.range (k - a)).map (fun t => baseDelay * 2 ^ (a - 1 + t))) := by
  intro a
  generalize hd : k - a = d
  induction d generalizing a with
  | zero =>
    intro ha1 hak _hfail le
    have hak' : a = k := by omega
    subst hak'
    rw [retryGo, if_neg (by omega), hk]
    simp
  | succ d ih =>
    intro ha1 hak hfail le
    have halt : a < k := by omega
    obtain ⟨e, he⟩ := hfail a le_rfl halt
    rw [retryGo, if_neg (by omega), he]
    simp only
    rw [if_neg (by omega : ¬ a = maxAttempts)]
    rw [ih (a + 1) (by omega) (by omega) (by omega)
      (fun j hj1 hj2 => hfail j (by omega) hj2) (some (coerceToError e))]
    refine Prod.ext rfl (Prod.ext ?_ ?_)
    · show k + 1 - (a + 1) + 1 = k + 1 - a
      omega
    · show baseDelay * 2 ^ (a - 1) ::
          (List.range d).map (fun t => baseDelay * 2 ^ (a + 1 - 1 + t)) =
        (List.range (d + 1)).map (fun t => baseDelay * 2 ^ (a - 1 + t))
      have htail : (List.range d).map (fun t => baseDelay * 2 ^ (a + 1 - 1 + t)) =
          (List.range d).map ((fun t => baseDelay * 2 ^ (a - 1 + t)) ∘ Nat.succ) := by
        apply List.map_congr_left
        intro t _
        simp only [Function.comp_apply]
        have hexp : a + 1 - 1 + t = a - 1 + Nat.succ t := by omega
        rw [hexp]
      rw [List.range_succ_eq_map, List.map_cons, List.map_map, htail]
      congr 1

/-- If every attempt from `a` through `maxAttempts` fails, the loop started
at attempt `a` makes exactly `maxAttempts + 1 - a` invocations and then
throws the coerced error of the final attempt, having waited the backoff
delays of attempts `a .. maxAttempts-1` in order. -/
theorem retryGo_all_fail {β : Type v} (fn : Nat → Except JSThrown β)
    (maxAttempts baseDelay : Nat) (errs : Nat → JSThrown)
    (hfail : ∀ j, 1 ≤ j → j ≤ maxAttempts → fn j = .error (errs j)) :
    ∀ (a : Nat), 1 ≤ a → a ≤ maxAttempts → ∀ le,
      retryGo fn maxAttempts baseDelay a le =
        (.error (coerceToError (errs maxAttempts)), maxAttempts + 1 - a,
         (List.range (maxAttempts - a)).map (fun t => baseDelay * 2 ^ (a - 1 + t))) := by
  intro a
  generalize hd : maxAttempts - a = d
  induction d generalizing a with
  | zero =>
    intro ha1 hak le
    have hak' : a = maxAttempts := by omega
    subst hak'
    rw [retryGo, if_neg (by omega), hfail a ha1 le_rfl]
    simp
  | succ d ih =>
    intro ha1 hak le
    have halt : a < maxAttempts := by omega
    rw [retryGo, if_neg (by omega), hfail a ha1 (by omega)]
    simp only
    rw [if_neg (by omega : ¬ a = maxAttempts)]
    rw [ih (a + 1) (by omega) (by omega) (by omega) (some (coerceToError (errs a)))]
    refine Prod.ext rfl (Prod.ext ?_ ?_)
    · show maxAttempts + 1 - (a + 1) + 1 = maxAttempts + 1 - a
      omega
    · show baseDelay * 2 ^ (a - 1) ::
          (List.range d).map (fun t => baseDelay * 2 ^ (a + 1 - 1 + t)) =
        (List.range (d + 1)).map (fun t => baseDelay * 2 ^ (a - 1 + t))
      have htail : (List.range d).map (fun t => baseDelay * 2 ^ (a + 1 - 1 + t)) =
          (List.range d).map ((fun t => baseDelay * 2 ^ (a - 1 + t)) ∘ Nat.succ) := by
        apply List.map_congr_left
        intro t _
        simp only [Function.comp_apply]
        have hexp : a + 1 - 1 + t = a - 1 + Nat.succ t := by omega
        rw [hexp]
      rw [List.range_succ_eq_map, List.map_cons, List.map_map, htail]
      congr 1

/-! ## `processBatch` characterization -/

/-- Unfolding of `processBatch` over the first item of a batch: the error
logs concatenate; the batch rejects with the first item rejection; otherwise
the head's non-`null` value (if any) is prepended to the tail's results. -/
theorem processBatch_cons {α : Type u} {β : Type v}
    (f : α → Nat → Except JSThrown (Option β)) (stop : Bool) (a : α) (l : List α) (s : Nat) :
    processBatch f stop (a :: l) s =
      ((itemOutcome f stop a s).1 ++ (processBatch f stop l (s + 1)).1,
       match (itemOutcome f stop a s).2 with
       | .error e => .error e
       | .ok v =>
         match (processBatch f stop l (s + 1)).2 with
         | .error e => .error e
         | .ok vs => .ok (v.toList ++ vs)) := by
  cases hfa : f a s with
  | ok r =>
    cases r with
    | some b =>
      simp only [processBatch, batchOutcomes, itemOutcome, hfa, List.map_cons,
        List.flatten_cons, List.findSome?_cons, List.filterMap_cons, Except.toOption,
        List.nil_append, Option.toList]
      cases houts : (batchOutcomes f stop l (s + 1)).findSome?
          (fun o => match o.2 with | .error e => some e | .ok _ => none) with
      | some e => simp [houts]
      | none => simp [houts, List.filterMap_cons]
    | none =>
      simp only [processBatch, batchOutcomes, itemOutcome, hfa, List.map_cons,
        List.flatten_cons, List.findSome?_cons, List.filterMap_cons, Except.toOption,
        List.nil_append, Option.toList]
      cases houts : (batchOutcomes f stop l (s + 1)).findSome?
          (fun o => match o.2 with | .error e => some e | .ok _ => none) with
      | some e => simp [houts]
      | none => simp [houts, List.filterMap_cons]
  | error e =>
    cases stop with
    | true =>
      simp only [processBatch, batchOutcomes, itemOutcome, hfa, List.map_cons,
        List.flatten_cons, List.findSome?_cons, List.filterMap_cons, Except.toOption,
        List.cons_append, List.nil_append]
      simp
    | false =>
      simp only [processBatch, batchOutcomes, itemOutcome, hfa, List.map_cons,
        List.flatten_cons, List.findSome?_cons, List.filterMap_cons, Except.toOption,
        List.cons_append, List.nil_append, Option.toList]
      cases houts : (batchOutcomes f false l (s + 1)).findSome?
          (fun o => match o.2 with | .error e => some e | .ok _ => none) with
      | some e2 => simp [houts]
      | none => simp [houts, List.filterMap_cons]

/-- Value of `processBatch` on the empty batch. -/
theorem processBatch_nil {α : Type u} {β : Type v}
    (f : α → Nat → Except JSThrown (Option β)) (stop : Bool) (s : Nat) :
    processBatch f stop ([] : List α) s = ([], .ok []) := by
  simp [processBatch, batchOutcomes]

/-- With `stopOnError = false` a batch never rejects: every failed item is
replaced by the `null` sentinel, the error log lists the failing items in
index order, and the result list is exactly the non-`null` successes in
index order. -/
theorem processBatch_no_stop {α : Type u} {β : Type v}
    (f : α → Nat → Except JSThrown (Option β)) (batch : List α) :
    ∀ s, processBatch f false batch s = (elogSpec f batch s, .ok (resSpec f batch s)) := by
  induction batch with
  | nil =>
    intro s
    rw [processBatch_nil]
    simp [elogSpec, resSpec]
  | cons a l ih =>
    intro s
    rw [processBatch_cons, ih (s + 1)]
    cases hfa : f a s with
    | ok r =>
      simp only [itemOutcome, hfa, elogSpec, resSpec, List.nil_append]
      cases r with
      | some b => simp
      | none => simp
    | error e =>
      simp only [itemOutcome, hfa, elogSpec, resSpec, List.cons_append,
        List.nil_append, Bool.false_eq_true, if_false, Option.toList]

/-- Whenever `processBatch` resolves (under either error policy), its error
log and results are exactly the reference logs in index order. -/
theorem processBatch_ok_eq {α : Type u} {β : Type v}
    (f : α → Nat → Except JSThrown (Option β)) (stop : Bool) (batch : List α) :
    ∀ s bres, (processBatch f stop batch s).2 = .ok bres →
      processBatch f stop batch s = (elogSpec f batch s, .ok (resSpec f batch s)) := by
  cases stop with
  | false =>
    intro s bres _
    exact processBatch_no_stop f batch s
  | true =>
    induction batch with
    | nil =>
      intro s bres _
      rw [processBatch_nil]
      simp [elogSpec, resSpec]
    | cons a l ih =>
      intro s bres hok
      rw [processBatch_cons] at hok ⊢
      cases hfa : f a s with
      | ok r =>
        simp only [itemOutcome, hfa] at hok ⊢
        cases hrest : (processBatch f true l (s + 1)).2 with
        | ok vs =>
          rw [ih (s + 1) vs hrest]
          simp only [elogSpec, resSpec, hfa, List.nil_append]
          rw [ih (s + 1) vs hrest] at hrest
          simp only at hrest
          cases hrest
          cases r with
          | some b => simp
          | none => simp
        | error e =>
          rw [hrest] at hok
          simp at hok
      | error e =>
        simp only [itemOutcome, hfa] at hok
        simp at hok

/-! ## Sequential run characterization -/

/-- With `stopOnError = false` the sequential loop completes every batch:
one progress report per batch with the cumulative result count, the full
error log, and all collected results in order. -/
theorem processSeqGo_no_stop {α : Type u} {β : Type v}
    (f : α → Nat → Except JSThrown (Option β)) (bs total : Nat) :
    ∀ (batches : List (List α)) (i : Nat) (acc : List β) (plog : List (Nat × Nat))
      (elog : List (JSThrown × α × Nat)),
      processSeqGo f false bs total batches i acc plog elog =
        (plog ++ plogSpec total acc.length (batchCounts f bs batches i),
         elog ++ elogBatches f bs batches i,
         .ok (acc ++ resBatches f bs batches i)) := by
  intro batches
  induction batches with
  | nil =>
    intro i acc plog elog
    simp [processSeqGo, plogSpec, batchCounts, elogBatches, resBatches]
  | cons b rest ih =>
    intro i acc plog elog
    simp only [processSeqGo, processBatch_no_stop f b (i * bs)]
    rw [ih]
    simp [plogSpec, batchCounts, elogBatches, resBatches, List.append_assoc,
      List.length_append]

/-- Whenever the sequential loop resolves (under either error policy), its
progress log, error log and results are exactly the reference logs. -/
theorem processSeqGo_ok_eq {α : Type u} {β : Type v}
    (f : α → Nat → Except JSThrown (Option β)) (stop : Bool) (bs total : Nat) :
    ∀ (batches : List (List α)) (i : Nat) (acc : List β) (plog : List (Nat × Nat))
      (elog : List (JSThrown × α × Nat)) plog2 elog2 res,
      processSeqGo f stop bs total batches i acc plog elog = (plog2, elog2, .ok res) →
      plog2 = plog ++ plogSpec total acc.length (batchCounts f bs batches i) ∧
      elog2 = elog ++ elogBatches f bs batches i ∧
      res = acc ++ resBatches f bs batches i := by
  cases stop with
  | false =>
    intro batches i acc plog elog plog2 elog2 res h
    rw [processSeqGo_no_stop] at h
    injection h with h1 h23
    injection h23 with h2 h3
    injection h3 with h3
    exact ⟨h1.symm, h2.symm, h3.symm⟩
  | true =>
    intro batches
    induction batches with
    | nil =>
      intro i acc plog elog plog2 elog2 res h
      simp only [processSeqGo] at h
      injection h with h1 h23
      injection h23 with h2 h3
      injection h3 with h3
      subst h1
      subst h2
      subst h3
      simp [plogSpec, batchCounts, elogBatches, resBatches]
    | cons b rest ih =>
      intro i acc plog elog plog2 elog2 res h
      simp only [processSeqGo] at h
      cases hr : (processBatch f true b (i * bs)).2 with
      | ok bres =>
        rw [hr] at h
        simp only at h
        obtain ⟨h1, h2, h3⟩ := ih (i + 1) (acc ++ bres)
          (plog ++ [(acc.length + bres.length, total)])
          (elog ++ (processBatch f true b (i * bs)).1) plog2 elog2 res h
        have hb := processBatch_ok_eq f true b (i * bs) bres hr
        have hb1 : (processBatch f true b (i * bs)).1 = elogSpec f b (i * bs) := by
          rw [hb]
        have hb2 : bres = resSpec f b (i * bs) := by
          rw [hb] at hr
          injection hr with hr
          exact hr.symm
        subst hb2
        refine ⟨?_, ?_, ?_⟩
        · rw [h1]
          simp [plogSpec, batchCounts, List.append_assoc, List.length_append]
        · rw [h2, hb1]
          simp [elogBatches, List.append_assoc]
        · rw [h3]
          simp [resBatches, List.append_assoc]
      | error e =>
        rw [hr] at h
        simp only [if_pos rfl] at h
        injection h with h1 h23
        injection h23 with h2 h3
        cases h3

/-! ## Reference-log composition over chunked input -/

/-- Result reference log of an appended list splits at the join point. -/
theorem resSpec_append {α : Type u} {β : Type v}
    (f : α → Nat → Except JSThrown (Option β)) :
    ∀ (l1 l2 : List α) (s : Nat),
      resSpec f (l1 ++ l2) s = resSpec f l1 s ++ resSpec f l2 (s + l1.length) := by
  intro l1
  induction l1 with
  | nil =>
    intro l2 s
    simp [resSpec]
  | cons a l ih =>
    intro l2 s
    have hs : s + 1 + l.length = s + (l.length + 1) := by omega
    simp only [List.cons_append, resSpec, List.length_cons, List.append_eq]
    rw [ih l2 (s + 1), hs, List.append_assoc]

/-- Error reference log of an appended list splits at the join point. -/
theorem elogSpec_append {α : Type u} {β : Type v}
    (f : α → Nat → Except JSThrown (Option β)) :
    ∀ (l1 l2 : List α) (s : Nat),
      elogSpec f (l1 ++ l2) s = elogSpec f l1 s ++ elogSpec f l2 (s + l1.length) := by
  intro l1
  induction l1 with
  | nil =>
    intro l2 s
    simp [elogSpec]
  | cons a l ih =>
    intro l2 s
    have hs : s + 1 + l.length = s + (l.length + 1) := by omega
    simp only [List.cons_append, elogSpec, List.length_cons, List.append_eq]
    rw [ih l2 (s + 1), hs, List.append_assoc]

/-- Concatenating the per-batch result logs of the chunked input, batch `k`
onward, yields the item-level result log of the whole remaining input:
uniform batch sizes make `startIndex = i * batchSize` the true absolute
index of each batch. -/
theorem resBatches_chunk {α : Type u} {β : Type v}
    (f : α → Nat → Except JSThrown (Option β)) (bs : Nat) (hs : 1 ≤ bs) :
    ∀ (l : List α) (k : Nat), resBatches f bs (chunk l bs) k = resSpec f l (k * bs) := by
  intro l
  generalize hn : l.length = n
  induction n using Nat.strong_induction_on generalizing l with
  | _ n ih =>
    intro k
    by_cases he : l = []
    · subst he
      simp [chunk_nil, resBatches, resSpec]
    · have hpos : 0 < l.length := List.length_pos.mpr he
      have hlen : (l.drop bs).length < n := by
        simp only [List.length_drop]
        omega
      rw [chunk_cons _ _ (by omega) he]
      simp only [resBatches]
      rw [ih (l.drop bs).length hlen (l.drop bs) rfl (k + 1)]
      conv_rhs => rw [← List.take_append_drop bs l, resSpec_append]
      rcases le_or_lt bs l.length with hge | hlt
      · have htk : (l.take bs).length = bs := by
          rw [List.length_take]
          omega
        rw [htk]
        have hmul : k * bs + bs = (k + 1) * bs := by ring
        rw [hmul]
      · have hdrop : l.drop bs = [] := List.drop_eq_nil_of_le (by omega)
        rw [hdrop]
        simp [resSpec]

/-- Concatenating the per-batch error logs of the chunked input yields the
item-level error log of the whole remaining input. -/
theorem elogBatches_chunk {α : Type u} {β : Type v}
    (f : α → Nat → Except JSThrown (Option β)) (bs : Nat) (hs : 1 ≤ bs) :
    ∀ (l : List α) (k : Nat), elogBatches f bs (chunk l bs) k = elogSpec f l (k * bs) := by
  intro l
  generalize hn : l.length = n
  induction n using Nat.strong_induction_on generalizing l with
  | _ n ih =>
    intro k
    by_cases he : l = []
    · subst he
      simp [chunk_nil, elogBatches, elogSpec]
    · have hpos : 0 < l.length := List.length_pos.mpr he
      have hlen : (l.drop bs).length < n := by
        simp only [List.length_drop]
        omega
      rw [chunk_cons _ _ (by omega) he]
      simp only [elogBatches]
      rw [ih (l.drop bs).length hlen (l.drop bs) rfl (k + 1)]
      conv_rhs => rw [← List.take_append_drop bs l, elogSpec_append]
      rcases le_or_lt bs l.length with hge | hlt
      · have htk : (l.take bs).length = bs := by
          rw [List.length_take]
          omega
        rw [htk]
        have hmul : k * bs + bs = (k + 1) * bs := by ring
        rw [hmul]
      · have hdrop : l.drop bs = [] := List.drop_eq_nil_of_le (by omega)
        rw [hdrop]
        simp [elogSpec]

/-! ## Progress-log shape -/

theorem plogSpec_length (total : Nat) :
    ∀ (cs : List Nat) (c : Nat), (plogSpec total c cs).length = cs.length := by
  intro cs
  induction cs with
  | nil => intro c; rfl
  | cons x xs ih =>
    intro c
    simp [plogSpec, ih]

theorem plogSpec_total (total : Nat) :
    ∀ (cs : List Nat) (c : Nat) (p : Nat × Nat), p ∈ plogSpec total c cs → p.2 = total := by
  intro cs
  induction cs with
  | nil =>
    intro c p hp
    simp [plogSpec] at hp
  | cons x xs ih =>
    intro c p hp
    simp only [plogSpec, List.mem_cons] at hp
    rcases hp with hp | hp
    · rw [hp]
    · exact ih (c + x) p hp

theorem plogSpec_head_ge (total : Nat) :
    ∀ (cs : List Nat) (c : Nat) (p : Nat × Nat),
      (plogSpec total c cs).head? = some p → c ≤ p.1 := by
  intro cs
  cases cs with
  | nil =>
    intro c p hp
    simp [plogSpec] at hp
  | cons x xs =>
    intro c p hp
    simp only [plogSpec, List.head?_cons] at hp
    injection hp with hp
    rw [← hp]
    omega

/-- Progress reports are monotonically non-decreasing in the cumulative
count. -/
theorem plogSpec_mono (total : Nat) :
    ∀ (cs : List Nat) (c : Nat),
      List.Chain' (fun x y => x.1 ≤ y.1) (plogSpec total c cs) := by
  intro cs
  induction cs with
  | nil =>
    intro c
    simp [plogSpec]
  | cons x xs ih =>
    intro c
    simp only [plogSpec]
    rw [List.chain'_cons']
    refine ⟨?_, ih (c + x)⟩
    intro p hp
    have := plogSpec_head_ge total xs (c + x) p hp
    omega

theorem plogSpec_getLast (total : Nat) :
    ∀ (cs : List Nat) (c : Nat), cs ≠ [] →
      (plogSpec total c cs).getLast? = some (c + cs.sum, total) := by
  intro cs
  induction cs with
  | nil =>
    intro c h
    exact absurd rfl h
  | cons x xs ih =>
    intro c _
    by_cases hxs : xs = []
    · subst hxs
      simp [plogSpec]
    · simp only [plogSpec]
      obtain ⟨t, ts, hts⟩ := List.exists_cons_of_ne_nil
        (show plogSpec total (c + x) xs ≠ [] by
          intro hnil
          have := plogSpec_length total xs (c + x)
          rw [hnil] at this
          simp at this
          exact hxs (List.length_eq_zero.mp this.symm))
      rw [hts, List.getLast?_cons_cons, ← hts, ih (c + x) hxs, List.sum_cons]
      have hadd : c + x + xs.sum = c + (x + xs.sum) := by omega
      rw [hadd]

/-- Per-batch result counts sum to the total number of collected results. -/
theorem batchCounts_sum {α : Type u} {β : Type v}
    (f : α → Nat → Except JSThrown (Option β)) (bs : Nat) :
    ∀ (batches : List (List α)) (i : Nat),
      (batchCounts f bs batches i).sum = (resBatches f bs batches i).length := by
  intro batches
  induction batches with
  | nil =>
    intro i
    simp [batchCounts, resBatches]
  | cons b rest ih =>
    intro i
    simp [batchCounts, resBatches, ih, List.length_append]

/-! ## Mid-run option updates -/

/-- A sequential run during which no `updateOptions` call happens behaves
exactly like the plain sequential run under the entry options. -/
theorem processSeqUpdGo_no_upd {α : Type u} {β : Type v}
    (f : α → Nat → Except JSThrown (Option β)) (entry : BatchOptions) (total : Nat) :
    ∀ (batches : List (List α)) (i : Nat) (acc : List β) (plog : List (Nat × Nat))
      (elog : List (JSThrown × α × Nat)),
      processSeqUpdGo f entry (fun _ => none) total batches i entry acc plog elog =
        processSeqGo f entry.stopOnError entry.batchSize total batches i acc plog elog := by
  intro batches
  induction batches with
  | nil =>
    intro i acc plog elog
    rfl
  | cons b rest ih =>
    intro i acc plog elog
    simp only [processSeqUpdGo, processSeqGo]
    cases hr : (processBatch f entry.stopOnError b (i * entry.batchSize)).2 with
    | ok bres =>
      simp only [hr]
      have hcur : (if 0 < entry.delay then if rest.isEmpty then entry
          else match (fun _ : Nat => (none : Option PartialBatchOptions)) i with
            | some p => mergeOptions entry p
            | none => entry
          else entry) = entry := by
        cases rest.isEmpty <;> by_cases hd : 0 < entry.delay <;> simp [hd]
      rw [hcur, ih]
    | error e =>
      simp only [hr]
      by_cases hstop : entry.stopOnError
      · simp [hstop]
      · simp [hstop, ih]

/-- A processor that never fails on the given segment produces no `onError`
records. -/
theorem elogSpec_nil_of_ok {α : Type u} {β : Type v} (f' : α → Nat → Except JSThrown β) :
    ∀ (l : List α) (s : Nat),
      (∀ (i : Nat) (hi : i < l.length), ∃ b, f' (l.get ⟨i, hi⟩) (s + i) = .ok b) →
      elogSpec (liftProcessor f') l s = [] := by
  intro l
  induction l with
  | nil =>
    intro s _
    rfl
  | cons a t ih =>
    intro s h
    obtain ⟨b, hb⟩ := h 0 (by simp)
    have ha : f' a s = .ok b := by
      simpa using hb
    have htail : elogSpec (liftProcessor f') t (s + 1) = [] := by
      apply ih (s + 1)
      intro i hi
      obtain ⟨c, hc⟩ := h (i + 1) (by simpa using Nat.succ_lt_succ hi)
      refine ⟨c, ?_⟩
      have hidx : s + (i + 1) = s + 1 + i := by omega
      rw [← hidx]
      exact hc
    have hla : liftProcessor f' a s = .ok (some b) := by
      simp [liftProcessor, ha, Except.map]
    simp [elogSpec, hla, htail]

/-- A processor failing at exactly one position of the segment produces
exactly one `onError` record, carrying the coerced error, the failing item,
and its absolute index. -/
theorem elogSpec_one_fail {α : Type u} {β : Type v} (f' : α → Nat → Except JSThrown β) :
    ∀ (l : List α) (s j : Nat) (hj : j < l.length) (e : JSThrown),
      f' (l.get ⟨j, hj⟩) (s + j) = .error e →
      (∀ (i : Nat) (hi : i < l.length), i ≠ j → ∃ b, f' (l.get ⟨i, hi⟩) (s + i) = .ok b) →
      elogSpec (liftProcessor f') l s =
        [(coerceToError e, l.get ⟨j, hj⟩, s + j)] := by
  intro l
  induction l with
  | nil =>
    intro s j hj
    simp at hj
  | cons a t ih =>
    intro s j hj e hfail hok
    cases j with
    | zero =>
      have ha : f' a s = .error e := by
        simpa using hfail
      have htail : elogSpec (liftProcessor f') t (s + 1) = [] := by
        apply elogSpec_nil_of_ok f' t (s + 1)
        intro i hi
        obtain ⟨c, hc⟩ := hok (i + 1) (by simpa using Nat.succ_lt_succ hi) (by omega)
        refine ⟨c, ?_⟩
        have hidx : s + (i + 1) = s + 1 + i := by omega
        rw [← hidx]
        exact hc
      have hla : liftProcessor f' a s = .error e := by
        simp [liftProcessor, ha, Except.map]
      simp [elogSpec, hla, htail]
    | succ j' =>
      have hj' : j' < t.length := by
        simpa using Nat.lt_of_succ_lt_succ hj
      obtain ⟨b, hb⟩ := hok 0 (by simp) (by omega)
      have ha : f' a s = .ok b := by
        simpa using hb
      have hfail' : f' (t.get ⟨j', hj'⟩) (s + 1 + j') = .error e := by
        have hidx : s + (j' + 1) = s + 1 + j' := by omega
        rw [← hidx]
        exact hfail
      have hok' : ∀ (i : Nat) (hi : i < t.length), i ≠ j' →
          ∃ c, f' (t.get ⟨i, hi⟩) (s + 1 + i) = .ok c := by
        intro i hi hne
        obtain ⟨c, hc⟩ := hok (i + 1) (by simpa using Nat.succ_lt_succ hi) (by omega)
        refine ⟨c, ?_⟩
        have hidx : s + (i + 1) = s + 1 + i := by omega
        rw [← hidx]
        exact hc
      have htail := ih (s + 1) j' hj' e hfail' hok'
      have hidx : s + 1 + j' = s + (j' + 1) := by omega
      rw [hidx] at htail
      have hla : liftProcessor f' a s = .ok (some b) := by
        simp [liftProcessor, ha, Except.map]
      simp [elogSpec, hla, htail]

/-- Under a `null`-free processor, every item contributes exactly one record:
either a collected result or an `onError` record. -/
theorem resSpec_lift_partition {α : Type u} {β : Type v} (f' : α → Nat → Except JSThrown β) :
    ∀ (l : List α) (s : Nat),
      (resSpec (liftProcessor f') l s).length +
        (elogSpec (liftProcessor f') l s).length = l.length := by
  intro l
  induction l with
  | nil =>
    intro s
    rfl
  | cons a t ih =>
    intro s
    have hrec := ih (s + 1)
    cases hfa : f' a s with
    | ok b =>
      have hla : liftProcessor f' a s = .ok (some b) := by
        simp [liftProcessor, hfa, Except.map]
      simp only [resSpec, elogSpec, hla, List.singleton_append, List.nil_append,
        List.length_cons]
      omega
    | error e =>
      have hla : liftProcessor f' a s = .error e := by
        simp [liftProcessor, hfa, Except.map]
      simp only [resSpec, elogSpec, hla, List.singleton_append, List.nil_append,
        List.length_cons]
      omega

/-- The collected results never outnumber the processed items. -/
theorem resSpec_length_le {α : Type u} {β : Type v}
    (f : α → Nat → Except JSThrown (Option β)) :
    ∀ (l : List α) (s : Nat), (resSpec f l s).length ≤ l.length := by
  intro l
  induction l with
  | nil =>
    intro s
    simp [resSpec]
  | cons a t ih =>
    intro s
    cases hfa : f a s with
    | ok r =>
      cases r with
      | some b =>
        simp only [resSpec, hfa]
        simp only [List.singleton_append, List.length_cons, List.length_cons]
        exact Nat.succ_le_succ (ih (s + 1))
      | none =>
        simp only [resSpec, hfa, List.nil_append, List.length_cons]
        exact Nat.le_succ_of_le (ih (s + 1))
    | error e =>
      simp only [resSpec, hfa, List.nil_append, List.length_cons]
      exact Nat.le_succ_of_le (ih (s + 1))

/-! ## Concurrent-path invariants -/

theorem settleOne_next {α : Type u} {β : Type v}
    (outcome : Nat → List (JSThrown × α × Nat) × Except JSThrown (List β))
    (stop : Bool) (total : Nat) (st : ConcSt α β) (j : Nat) :
    (settleOne outcome stop total st j).1.next = st.next := by
  rw [settleOne]
  cases (outcome j).2 <;> rfl

theorem settleOne_active {α : Type u} {β : Type v}
    (outcome : Nat → List (JSThrown × α × Nat) × Except JSThrown (List β))
    (stop : Bool) (total : Nat) (st : ConcSt α β) (j : Nat) :
    (settleOne outcome stop total st j).1.active = st.active.erase j := by
  rw [settleOne]
  cases (outcome j).2 <;> rfl

/-- Settlement of an in-flight batch preserves the run-state invariant. -/
theorem settleOne_inv {α : Type u} {β : Type v}
    (outcome : Nat → List (JSThrown × α × Nat) × Except JSThrown (List β))
    (stop : Bool) (N total : Nat) (st : ConcSt α β) (j : Nat)
    (hinv : ConcInv outcome N total st) (hj : j ∈ st.active) :
    ConcInv outcome N total (settleOne outcome stop total st j).1 := by
  have hperm : ((st.active.erase j ++ (st.settled ++ [j]))).Perm (List.range st.next) := by
    have h1 : st.active.Perm (j :: st.active.erase j) := List.perm_cons_erase hj
    have h2 : ((st.active.erase j ++ st.settled) ++ [j]).Perm (st.active ++ st.settled) :=
      List.Perm.trans (@List.perm_append_comm _ _ _)
        ((List.Perm.append_right st.settled h1).symm)
    rw [← List.append_assoc]
    exact h2.trans hinv.perm
  cases houtj : (outcome j).2 with
  | ok rs =>
    refine ⟨?_, ?_, ?_, ?_, ?_, ?_, ?_, ?_⟩
    · rw [settleOne, houtj]
      exact hperm
    · rw [settleOne, houtj]
      exact hinv.nextLe
    · rw [settleOne, houtj]
      show st.results ++ rs = ((st.settled ++ [j]).map (fun t => okList (outcome t))).flatten
      rw [List.map_append, List.flatten_append, ← hinv.resultsEq]
      simp [okList, houtj]
    · rw [settleOne, houtj]
      show st.elog ++ (outcome j).1 =
        ((st.settled ++ [j]).map (fun t => (outcome t).1)).flatten
      rw [List.map_append, List.flatten_append, ← hinv.elogEq]
      simp
    · rw [settleOne, houtj]
      show (st.plog ++ [(st.results.length + rs.length, total)]).length =
        ((st.settled ++ [j]).filter (fun t => isOkB (outcome t))).length
      rw [List.filter_append, List.length_append, List.length_append, hinv.plogLen]
      simp [isOkB, houtj]
    · rw [settleOne, houtj]
      intro p hp
      rcases List.mem_append.mp hp with hp | hp
      · exact hinv.plogTotal p hp
      · simp at hp
        rw [hp]
    · rw [settleOne, houtj]
      show List.Chain' (fun x y : Nat × Nat => x.1 ≤ y.1)
        (st.plog ++ [(st.results.length + rs.length, total)])
      rw [List.chain'_append]
      refine ⟨hinv.plogMono, List.chain'_singleton _, ?_⟩
      intro x hx y hy
      simp only [List.head?_cons, Option.mem_def, Option.some.injEq] at hy
      rcases hinv.plogLast with hl | ⟨hl, _⟩
      · rw [hinv.plogLast.resolve_right ?_ ] at hx
        · simp only [Option.mem_def, Option.some.injEq] at hx
          rw [← hx, ← hy]
          simp
        · intro ⟨hpl, _⟩
          rw [hpl] at hx
          simp at hx
      · rw [hl] at hx
        simp at hx
    · rw [settleOne, houtj]
      left
      show (st.plog ++ [(st.results.length + rs.length, total)]).getLast? =
        some ((st.results ++ rs).length, total)
      rw [List.getLast?_concat, List.length_append]
  | error e =>
    refine ⟨?_, ?_, ?_, ?_, ?_, ?_, ?_, ?_⟩
    · rw [settleOne, houtj]
      exact hperm
    · rw [settleOne, houtj]
      exact hinv.nextLe
    · rw [settleOne, houtj]
      show st.results = ((st.settled ++ [j]).map (fun t => okList (outcome t))).flatten
      rw [List.map_append, List.flatten_append, ← hinv.resultsEq]
      simp [okList, houtj]
    · rw [settleOne, houtj]
      show st.elog ++ (outcome j).1 =
        ((st.settled ++ [j]).map (fun t => (outcome t).1)).flatten
      rw [List.map_append, List.flatten_append, ← hinv.elogEq]
      simp
    · rw [settleOne, houtj]
      show st.plog.length = ((st.settled ++ [j]).filter (fun t => isOkB (outcome t))).length
      rw [List.filter_append, List.length_append, hinv.plogLen]
      simp [isOkB, houtj]
    · rw [settleOne, houtj]
      exact hinv.plogTotal
    · rw [settleOne, houtj]
      exact hinv.plogMono
    · rw [settleOne, houtj]
      exact hinv.plogLast

/-- Settling a valid window of in-flight batches preserves the invariant. -/
theorem settleMany_inv {α : Type u} {β : Type v}
    (outcome : Nat → List (JSThrown × α × Nat) × Except JSThrown (List β))
    (stop : Bool) (N total : Nat) :
    ∀ (w : List Nat) (st : ConcSt α β), ConcInv outcome N total st →
      w.Nodup → (∀ j ∈ w, j ∈ st.active) →
      ConcInv outcome N total (settleMany outcome stop total st w) := by
  intro w
  induction w with
  | nil =>
    intro st hinv _ _
    exact hinv
  | cons j rest ih =>
    intro st hinv hnodup hmem
    rw [settleMany]
    apply ih
    · exact settleOne_inv outcome stop N total st j hinv (hmem j (by simp))
    · exact (List.nodup_cons.mp hnodup).2
    · intro t ht
      rw [settleOne_active]
      have hne : t ≠ j := by
        intro hte
        exact (List.nodup_cons.mp hnodup).1 (hte ▸ ht)
      exact (List.mem_erase_of_ne hne).mpr (hmem t (by simp [ht]))

theorem settleWindow_fst {α : Type u} {β : Type v}
    (outcome : Nat → List (JSThrown × α × Nat) × Except JSThrown (List β))
    (stop : Bool) (total : Nat) (st : ConcSt α β) (w : List Nat) :
    (settleWindow outcome stop total st w).1 = settleMany outcome stop total st w := by
  cases w with
  | nil => rfl
  | cons j rest => rfl

/-- With `stopOnError = false` no chain ever rejects, so no race is ever
decided by a rejection. -/
theorem settleWindow_no_stop {α : Type u} {β : Type v}
    (outcome : Nat → List (JSThrown × α × Nat) × Except JSThrown (List β))
    (total : Nat) (st : ConcSt α β) (w : List Nat) :
    (settleWindow outcome false total st w).2 = none := by
  cases w with
  | nil => rfl
  | cons j rest =>
    rw [settleWindow]
    cases houtj : (outcome j).2 with
    | ok rs => simp [settleOne, houtj]
    | error e => simp [settleOne, houtj]

theorem settleMany_next {α : Type u} {β : Type v}
    (outcome : Nat → List (JSThrown × α × Nat) × Except JSThrown (List β))
    (stop : Bool) (total : Nat) :
    ∀ (w : List Nat) (st : ConcSt α β),
      (settleMany outcome stop total st w).next = st.next := by
  intro w
  induction w with
  | nil =>
    intro st
    rfl
  | cons j rest ih =>
    intro st
    rw [settleMany, ih, settleOne_next]

theorem validWindow_spec (active w : List Nat) :
    validWindow active w = true ↔ (∀ j ∈ w, j ∈ active) ∧ w.Nodup := by
  simp [validWindow, List.all_eq_true]

/-- The launch loop preserves the invariant, and at exit either the
concurrency limit is saturated or no batches remain to start. -/
theorem launchLoop_inv {α : Type u} {β : Type v}
    (outcome : Nat → List (JSThrown × α × Nat) × Except JSThrown (List β))
    (stop : Bool) (N conc delay total : Nat) :
    ∀ (st : ConcSt α β) (sched : List (List Nat)) (st1 : ConcSt α β)
      (sched1 : List (List Nat)), ConcInv outcome N total st →
      launchLoop outcome stop N conc delay total st sched = some (st1, sched1) →
      ConcInv outcome N total st1 ∧ ¬(st1.active.length < conc ∧ st1.next < N) := by
  intro st
  generalize hm : N - st.next = m
  induction m using Nat.strong_induction_on generalizing st with
  | _ m ih =>
    intro sched st1 sched1 hinv hrun
    rw [launchLoop] at hrun
    by_cases h : st.active.length < conc ∧ st.next < N
    · rw [dif_pos h] at hrun
      have hinvL : ConcInv outcome N total
          ⟨st.next + 1, st.active ++ [st.next], st.settled, st.results, st.plog, st.elog⟩ := by
        refine ⟨?_, ?_, hinv.resultsEq, hinv.elogEq, hinv.plogLen, hinv.plogTotal,
          hinv.plogMono, hinv.plogLast⟩
        · show ((st.active ++ [st.next]) ++ st.settled).Perm (List.range (st.next + 1))
          rw [List.range_succ]
          have h1 : ((st.active ++ [st.next]) ++ st.settled).Perm
              ((st.active ++ st.settled) ++ [st.next]) := by
            rw [List.append_assoc, List.append_assoc]
            exact List.Perm.append_left st.active (@List.perm_append_comm _ _ _)
          exact h1.trans (List.Perm.append_right [st.next] hinv.perm)
        · show st.next + 1 ≤ N
          omega
      simp only at hrun
      by_cases hd : 0 < delay ∧ st.next + 1 < N
      · rw [if_pos hd] at hrun
        cases sched with
        | nil => cases hrun
        | cons w sched' =>
          dsimp only at hrun
          by_cases hw : validWindow (st.active ++ [st.next]) w
          · rw [if_pos hw] at hrun
            obtain ⟨hmem, hnodup⟩ := (validWindow_spec _ _).mp hw
            have hinvM := settleMany_inv outcome stop N total w _ hinvL hnodup hmem
            have hnext : (settleMany outcome stop total
                ⟨st.next + 1, st.active ++ [st.next], st.settled, st.results, st.plog,
                  st.elog⟩ w).next = st.next + 1 := settleMany_next outcome stop total w _
            exact ih (N - (st.next + 1)) (by omega) _ (by rw [hnext]) sched' st1 sched1
              hinvM hrun
          · rw [if_neg hw] at hrun
            cases hrun
      · rw [if_neg hd] at hrun
        exact ih (N - (st.next + 1)) (by omega) _ rfl sched st1 sched1 hinvL hrun
    · rw [dif_neg h] at hrun
      injection hrun with hrun
      injection hrun with hrun1 hrun2
      subst hrun1
      exact ⟨hinv, h⟩

/-- The orchestration loop preserves the invariant; when it completes
without a propagated failure every launched batch has settled and no
batches remain (with at least one concurrency slot). -/
theorem orchLoop_inv {α : Type u} {β : Type v}
    (outcome : Nat → List (JSThrown × α × Nat) × Except JSThrown (List β))
    (stop : Bool) (N conc delay total : Nat) (hconc : 1 ≤ conc) :
    ∀ (fuel : Nat) (st : ConcSt α β) (sched : List (List Nat)) (st1 : ConcSt α β)
      (thr : Option JSThrown), ConcInv outcome N total st →
      orchLoop outcome stop N conc delay total fuel st sched = some (st1, thr) →
      ConcInv outcome N total st1 ∧
        (thr = none → st1.next = N ∧ st1.active = []) := by
  intro fuel
  induction fuel with
  | zero =>
    intro st sched st1 thr _ hrun
    cases hrun
  | succ fuel ih =>
    intro st sched st1 thr hinv hrun
    rw [orchLoop] at hrun
    by_cases hcond : st.next < N ∨ st.active ≠ []
    · rw [if_pos hcond] at hrun
      cases hlaunch : launchLoop outcome stop N conc delay total st sched with
      | none =>
        rw [hlaunch] at hrun
        cases hrun
      | some p =>
        obtain ⟨stA, schedA⟩ := p
        rw [hlaunch] at hrun
        dsimp only at hrun
        obtain ⟨hinvA, hpost⟩ := launchLoop_inv outcome stop N conc delay total st sched
          stA schedA hinv hlaunch
        by_cases hAe : stA.active.isEmpty
        · rw [if_pos hAe] at hrun
          injection hrun with hrun
          injection hrun with hrun1 hrun2
          subst hrun1
          subst hrun2
          refine ⟨hinvA, fun _ => ?_⟩
          have hae : stA.active = [] := List.isEmpty_iff.mp hAe
          have hlen : stA.active.length = 0 := by
            rw [hae]
            rfl
          have hnext : ¬ stA.next < N := by
            intro hlt
            exact hpost ⟨by omega, hlt⟩
          exact ⟨by
            have := hinvA.nextLe
            omega, hae⟩
        · rw [if_neg hAe] at hrun
          cases schedA with
          | nil => cases hrun
          | cons w sched2 =>
            dsimp only at hrun
            by_cases hwem : w.isEmpty
            · rw [if_pos hwem] at hrun
              cases hrun
            · rw [if_neg hwem] at hrun
              by_cases hw : validWindow stA.active w
              · rw [if_pos hw] at hrun
                obtain ⟨hmem, hnodup⟩ := (validWindow_spec _ _).mp hw
                have hinvW : ConcInv outcome N total
                    (settleWindow outcome stop total stA w).1 := by
                  rw [settleWindow_fst]
                  exact settleMany_inv outcome stop N total w stA hinvA hnodup hmem
                cases hsw : (settleWindow outcome stop total stA w).2 with
                | some e =>
                  rw [hsw] at hrun
                  injection hrun with hrun
                  injection hrun with hrun1 hrun2
                  subst hrun1
                  subst hrun2
                  exact ⟨hinvW, by intro hc; cases hc⟩
                | none =>
                  rw [hsw] at hrun
                  exact ih _ sched2 st1 thr hinvW hrun
              · rw [if_neg hw] at hrun
                cases hrun
    · rw [if_neg hcond] at hrun
      injection hrun with hrun
      injection hrun with hrun1 hrun2
      subst hrun1
      subst hrun2
      push_neg at hcond
      refine ⟨hinv, fun _ => ⟨?_, hcond.2⟩⟩
      have := hinv.nextLe
      omega

/-- With `stopOnError = false` the orchestration loop never propagates a
failure: whenever it completes, it completes normally. -/
theorem orchLoop_no_stop_none {α : Type u} {β : Type v}
    (outcome : Nat → List (JSThrown × α × Nat) × Except JSThrown (List β))
    (N conc delay total : Nat) :
    ∀ (fuel : Nat) (st : ConcSt α β) (sched : List (List Nat)) (st1 : ConcSt α β)
      (thr : Option JSThrown),
      orchLoop outcome false N conc delay total fuel st sched = some (st1, thr) →
      thr = none := by
  intro fuel
  induction fuel with
  | zero =>
    intro st sched st1 thr hrun
    cases hrun
  | succ fuel ih =>
    intro st sched st1 thr hrun
    rw [orchLoop] at hrun
    by_cases hcond : st.next < N ∨ st.active ≠ []
    · rw [if_pos hcond] at hrun
      cases hlaunch : launchLoop outcome false N conc delay total st sched with
      | none =>
        rw [hlaunch] at hrun
        cases hrun
      | some p =>
        obtain ⟨stA, schedA⟩ := p
        rw [hlaunch] at hrun
        dsimp only at hrun
        by_cases hAe : stA.active.isEmpty
        · rw [if_pos hAe] at hrun
          injection hrun with hrun
          injection hrun with hrun1 hrun2
          subst hrun2
          rfl
        · rw [if_neg hAe] at hrun
          cases schedA with
          | nil => cases hrun
          | cons w sched2 =>
            dsimp only at hrun
            by_cases hwem : w.isEmpty
            · rw [if_pos hwem] at hrun
              cases hrun
            · rw [if_neg hwem] at hrun
              by_cases hw : validWindow stA.active w
              · rw [if_pos hw] at hrun
                rw [settleWindow_no_stop] at hrun
                exact ih _ _ st1 thr hrun
              · rw [if_neg hw] at hrun
                cases hrun
    · rw [if_neg hcond] at hrun
      injection hrun with hrun
      injection hrun with hrun1 hrun2
      subst hrun2
      rfl

/-- At normal completion every launched batch has settled: the settlement
order is a permutation of the batch ordinals, so the accumulator, the error
log and the per-batch progress count are permutations of the corresponding
launch-ordered quantities. -/
theorem done_state_perm {α : Type u} {β : Type v}
    (outcome : Nat → List (JSThrown × α × Nat) × Except JSThrown (List β))
    (N total : Nat) (st : ConcSt α β) (hinv : ConcInv outcome N total st)
    (hnext : st.next = N) (hact : st.active = []) :
    st.settled.Perm (List.range N) ∧
    st.results.Perm (((List.range N).map (fun j => okList (outcome j))).flatten) ∧
    st.elog.Perm (((List.range N).map (fun j => (outcome j).1)).flatten) ∧
    st.plog.length = ((List.range N).filter (fun j => isOkB (outcome j))).length := by
  have hperm : st.settled.Perm (List.range N) := by
    have h := hinv.perm
    rw [hact, hnext] at h
    simpa using h
  refine ⟨hperm, ?_, ?_, ?_⟩
  · rw [hinv.resultsEq]
    exact (hperm.map _).flatten
  · rw [hinv.elogEq]
    exact (hperm.map _).flatten
  · rw [hinv.plogLen]
    exact (hperm.filter _).length_eq

/-- The per-ordinal result logs over all batch ordinals concatenate to the
batch-list result log. -/
theorem range_map_resSpec {α : Type u} {β : Type v}
    (f : α → Nat → Except JSThrown (Option β)) (bs : Nat) :
    ∀ (batches : List (List α)) (i : Nat),
      ((List.range batches.length).map
        (fun t => resSpec f (batches.getD t []) ((i + t) * bs))).flatten =
        resBatches f bs batches i := by
  intro batches
  induction batches with
  | nil =>
    intro i
    simp [resBatches]
  | cons b rest ih =>
    intro i
    rw [List.length_cons, List.range_succ_eq_map, List.map_cons, List.flatten_cons,
      List.map_map]
    have hhead : resSpec f ((b :: rest).getD 0 []) ((i + 0) * bs) = resSpec f b (i * bs) := by
      simp
    rw [hhead]
    have htail : (List.range rest.length).map
        ((fun t => resSpec f ((b :: rest).getD t []) ((i + t) * bs)) ∘ Nat.succ) =
        (List.range rest.length).map
          (fun t => resSpec f (rest.getD t []) ((i + 1 + t) * bs)) := by
      apply List.map_congr_left
      intro t _
      simp only [Function.comp_apply, List.getD_cons_succ]
      have harith : i + Nat.succ t = i + 1 + t := by omega
      rw [harith]
    rw [htail, ih (i + 1), resBatches]

/-- The per-ordinal error logs over all batch ordinals concatenate to the
batch-list error log. -/
theorem range_map_elogSpec {α : Type u} {β : Type v}
    (f : α → Nat → Except JSThrown (Option β)) (bs : Nat) :
    ∀ (batches : List (List α)) (i : Nat),
      ((List.range batches.length).map
        (fun t => elogSpec f (batches.getD t []) ((i + t) * bs))).flatten =
        elogBatches f bs batches i := by
  intro batches
  induction batches with
  | nil =>
    intro i
    simp [elogBatches]
  | cons b rest ih =>
    intro i
    rw [List.length_cons, List.range_succ_eq_map, List.map_cons, List.flatten_cons,
      List.map_map]
    have hhead : elogSpec f ((b :: rest).getD 0 []) ((i + 0) * bs) = elogSpec f b (i * bs) := by
      simp
    rw [hhead]
    have htail : (List.range rest.length).map
        ((fun t => elogSpec f ((b :: rest).getD t []) ((i + t) * bs)) ∘ Nat.succ) =
        (List.range rest.length).map
          (fun t => elogSpec f (rest.getD t []) ((i + 1 + t) * bs)) := by
      apply List.map_congr_left
      intro t _
      simp only [Function.comp_apply, List.getD_cons_succ]
      have harith : i + Nat.succ t = i + 1 + t := by omega
      rw [harith]
    rw [htail, ih (i + 1), elogBatches]

/-- With `stopOnError = false`, the launch-ordered concatenation of the
settling batches' results is the item-level result log of the whole input,
and likewise for the error logs. -/
theorem batchOutcome_flatten_no_stop {α : Type u} {β : Type v}
    (opts : BatchOptions) (f : α → Nat → Except JSThrown (Option β)) (items : List α)
    (hstop : opts.stopOnError = false) (hbs : 1 ≤ opts.batchSize) :
    (((List.range (createBatches opts.batchSize items).length).map
      (fun j => okList (batchOutcome opts f (createBatches opts.batchSize items) j))).flatten =
        resSpec f items 0) ∧
    (((List.range (createBatches opts.batchSize items).length).map
      (fun j => (batchOutcome opts f (createBatches opts.batchSize items) j).1)).flatten =
        elogSpec f items 0) := by
  constructor
  · have hmap : (List.range (createBatches opts.batchSize items).length).map
        (fun j => okList (batchOutcome opts f (createBatches opts.batchSize items) j)) =
        (List.range (createBatches opts.batchSize items).length).map
          (fun j => resSpec f ((createBatches opts.batchSize items).getD j [])
            ((0 + j) * opts.batchSize)) := by
      apply List.map_congr_left
      intro j _
      rw [batchOutcome, hstop, processBatch_no_stop]
      simp [okList]
    rw [hmap, range_map_resSpec, createBatches, resBatches_chunk f opts.batchSize hbs]
    simp
  · have hmap : (List.range (createBatches opts.batchSize items).length).map
        (fun j => (batchOutcome opts f (createBatches opts.batchSize items) j).1) =
        (List.range (createBatches opts.batchSize items).length).map
          (fun j => elogSpec f ((createBatches opts.batchSize items).getD j [])
            ((0 + j) * opts.batchSize)) := by
      apply List.map_congr_left
      intro j _
      rw [batchOutcome, hstop, processBatch_no_stop]
      simp
    rw [hmap, range_map_elogSpec, createBatches, elogBatches_chunk f opts.batchSize hbs]
    simp

theorem batchCounts_length {α : Type u} {β : Type v}
    (f : α → Nat → Except JSThrown (Option β)) (bs : Nat) :
    ∀ (batches : List (List α)) (i : Nat),
      (batchCounts f bs batches i).length = batches.length := by
  intro batches
  induction batches with
  | nil =>
    intro i
    rfl
  | cons b rest ih =>
    intro i
    simp [batchCounts, ih]

/-! ## Claims -/

/-- C1: for every batch size `b ≥ 1` and every input list of length `n`, the
chunking operation (`chunk`, and the scheduler's `createBatches`, whose body
is the same loop) produces `ceil(n/b) = (n + b - 1) / b` batches; every
batch except possibly the last has exactly `b` elements; the last batch of a
nonempty input has `n mod b` elements when that is nonzero, else `b`; the
concatenation of the batches equals the original list; and an empty input
yields an empty list of batches rather than one empty batch. -/
theorem claim1_chunking {α : Type u} (b : Nat) (hb : 1 ≤ b) (l : List α) :
    (chunk l b).length = (l.length + b - 1) / b ∧
    (∀ c ∈ (chunk l b).dropLast, c.length = b) ∧
    (l ≠ [] → ∃ last, (chunk l b).getLast? = some last ∧
      last.length = (if l.length % b = 0 then b else l.length % b)) ∧
    (chunk l b).flatten = l ∧
    chunk ([] : List α) b = [] ∧
    createBatches b l = chunk l b :=
  ⟨chunk_length b hb l, chunk_dropLast_length b hb l,
   fun he => chunk_getLast_length b hb l he, chunk_flatten b hb l,
   chunk_nil b, rfl⟩

/-- C1 witness: the theorem applied to batch size 3 and a 7-element list. -/
theorem claim1_chunking_witness :
    (chunk [0, 1, 2, 3, 4, 5, 6] 3).length = 3 ∧
    (chunk [0, 1, 2, 3, 4, 5, 6] 3).flatten = [0, 1, 2, 3, 4, 5, 6] := by
  have h := claim1_chunking 3 (by omega) [0, 1, 2, 3, 4, 5, 6]
  refine ⟨?_, h.2.2.2.1⟩
  rw [h.1]
  rfl

/-- C9 counterexample: the claim says chunking with `size ≤ 0` fails fast
(terminates promptly); on the nonempty array `[0]` with size `0` the source
loop instead never terminates: no fuel suffices for it to exit. -/
theorem claim9_counterexample : ¬ chunkTerminates [(0 : Nat)] 0 :=
  chunk_nonpos_not_terminates [0] 0 (by omega) (by simp)

/-- C9 amended: for every array and every size ≤ 0, the chunking loop does
not fail fast: on a nonempty array it loops indefinitely (returns no batch
list and raises no error), and on an empty array it returns the empty batch
list immediately. -/
theorem claim9_amended {α : Type u} (arr : List α) (size : Int) (hsz : size ≤ 0) :
    (arr ≠ [] → ¬ chunkTerminates arr size) ∧
    (arr = [] → chunkLoopGo 1 arr size 0 [] = some []) := by
  constructor
  · intro hne
    exact chunk_nonpos_not_terminates arr size hsz hne
  · intro he
    subst he
    exact chunkLoop_nil_terminates size

/-- C9 witness: the amended statement applied to the array `[0]` and the
empty array, both at size 0. -/
theorem claim9_amended_witness :
    (¬ chunkTerminates [(0 : Nat)] 0) ∧ chunkLoopGo 1 ([] : List Nat) 0 0 [] = some [] :=
  ⟨(claim9_amended [(0 : Nat)] 0 (by omega)).1 (by simp),
   (claim9_amended ([] : List Nat) 0 (by omega)).2 rfl⟩

/-- C5: for every operation and `maxAttempts ≥ 1`, `retry` returns the
operation's result at the first successful attempt `k` after exactly `k`
invocations, waiting `baseDelay * 2 ^ (j - 1)` between attempts `j` and
`j + 1`; if every attempt up to `maxAttempts` fails, the final failure is
propagated (coerced to an `Error` when the thrown value was not one) after
exactly `maxAttempts` invocations, never more; the defaults are
`maxAttempts = 3` and `baseDelay = 1000`. -/
theorem claim5_retry {β : Type v} (fn : Nat → Except JSThrown β)
    (maxAttempts baseDelay : Nat) (hmax : 1 ≤ maxAttempts) :
    (∀ (k : Nat) (b : β), 1 ≤ k → k ≤ maxAttempts → fn k = .ok b →
      (∀ j, 1 ≤ j → j < k → ∃ e, fn j = .error e) →
      retry fn maxAttempts baseDelay =
        (.ok b, k, (List.range (k - 1)).map (fun t => baseDelay * 2 ^ t))) ∧
    (∀ (errs : Nat → JSThrown), (∀ j, 1 ≤ j → j ≤ maxAttempts → fn j = .error (errs j)) →
      retry fn maxAttempts baseDelay =
        (.error (coerceToError (errs maxAttempts)), maxAttempts,
         (List.range (maxAttempts - 1)).map (fun t => baseDelay * 2 ^ t))) ∧
    retryDefaults fn = retry fn 3 1000 := by
  refine ⟨?_, ?_, rfl⟩
  · intro k b hk1 hkmax hok hfail
    rw [retry, retryGo_first_success fn maxAttempts baseDelay k b hok hkmax 1 le_rfl hk1
      (fun j hj1 hj2 => hfail j hj1 hj2) none]
    refine Prod.ext rfl (Prod.ext ?_ ?_)
    · show k + 1 - 1 = k
      omega
    · show (List.range (k - 1)).map (fun t => baseDelay * 2 ^ (1 - 1 + t)) =
        (List.range (k - 1)).map (fun t => baseDelay * 2 ^ t)
      apply List.map_congr_left
      intro t _
      norm_num
  · intro errs hfail
    rw [retry, retryGo_all_fail fn maxAttempts baseDelay errs hfail 1 le_rfl hmax none]
    refine Prod.ext rfl (Prod.ext ?_ ?_)
    · show maxAttempts + 1 - 1 = maxAttempts
      omega
    · show (List.range (maxAttempts - 1)).map (fun t => baseDelay * 2 ^ (1 - 1 + t)) =
        (List.range (maxAttempts - 1)).map (fun t => baseDelay * 2 ^ t)
      apply List.map_congr_left
      intro t _
      norm_num

/-- C5 witness: with `maxAttempts = 3`, `baseDelay = 10`, an operation
failing twice then succeeding returns the success value after exactly 3
invocations with waits 10 and 20 ms; an operation always throwing a
non-`Error` string raises the wrapped error after exactly 3 invocations. -/
theorem claim5_retry_witness :
    retry (fun j => if j < 3 then .error (.errObj "e") else .ok (42 : Nat)) 3 10 =
      (.ok 42, 3, [10, 20]) ∧
    retry (fun _ => (.error (.nonError "x") : Except JSThrown Nat)) 3 10 =
      (.error (.errObj "x"), 3, [10, 20]) := by
  constructor
  · have h := (claim5_retry (fun j => if j < 3 then .error (.errObj "e") else .ok (42 : Nat))
      3 10 (by omega)).1 3 42 (by omega) (by omega) (by norm_num)
      (fun j hj1 hj2 => ⟨.errObj "e", by simp [hj2]⟩)
    rw [h]
    rfl
  · have h := (claim5_retry (fun _ => (.error (.nonError "x") : Except JSThrown Nat))
      3 10 (by omega)).2.1 (fun _ => .nonError "x") (fun j _ _ => rfl)
    rw [h]
    rfl

/-- C2: for every input list processed with `concurrency = 1` (and a valid
positive batch size), the list returned by `process` equals the
successfully-processed items' results in original input order; in
particular, for items `[1..10]` with `batchSize = 3` and a processor that
doubles its item, `process` returns exactly `[2,4,...,20]` and `onProgress`
is called with cumulative counts 3, 6, 9, 10, each with total 10. -/
theorem claim2_sequential_order :
    (∀ (α : Type u) (β : Type v) (opts : BatchOptions)
      (f' : α → Nat → Except JSThrown β) (items : List α)
      (plog : List (Nat × Nat)) (elog : List (JSThrown × α × Nat)) (res : List β),
      opts.concurrency = 1 → 1 ≤ opts.batchSize →
      processSeq opts (liftProcessor f') items = (plog, elog, .ok res) →
      res = resSpec (liftProcessor f') items 0) ∧
    processSeq ⟨3, 0, 1, false⟩
      (liftProcessor (fun (a : Nat) (_ : Nat) => (.ok (a * 2) : Except JSThrown Nat)))
      [1, 2, 3, 4, 5, 6, 7, 8, 9, 10] =
      ([(3, 10), (6, 10), (9, 10), (10, 10)], [],
       .ok [2, 4, 6, 8, 10, 12, 14, 16, 18, 20]) := by
  constructor
  · intro α β opts f' items plog elog res _hconc hbs hrun
    simp only [processSeq] at hrun
    obtain ⟨h1, h2, h3⟩ := processSeqGo_ok_eq (liftProcessor f') opts.stopOnError
      opts.batchSize items.length (createBatches opts.batchSize items) 0 [] [] []
      plog elog res hrun
    rw [h3, createBatches, resBatches_chunk _ _ hbs]
    simp
  · have hb : createBatches 3 [1, 2, 3, 4, 5, 6, 7, 8, 9, 10] =
        [[1, 2, 3], [4, 5, 6], [7, 8, 9], [10]] := by
      simp [createBatches, chunk.eq_def]
    simp only [processSeq]
    rw [hb]
    rfl

/-- C2 witness: the order theorem applied to the scenario run itself. -/
theorem claim2_sequential_order_witness :
    [2, 4, 6, 8, 10, 12, 14, 16, 18, 20] =
      resSpec (liftProcessor (fun (a : Nat) (_ : Nat) => (.ok (a * 2) : Except JSThrown Nat)))
        [1, 2, 3, 4, 5, 6, 7, 8, 9, 10] 0 :=
  claim2_sequential_order.{0, 0}.1 Nat Nat ⟨3, 0, 1, false⟩
    (fun a _ => .ok (a * 2)) [1, 2, 3, 4, 5, 6, 7, 8, 9, 10]
    [(3, 10), (6, 10), (9, 10), (10, 10)] [] [2, 4, 6, 8, 10, 12, 14, 16, 18, 20]
    rfl (by decide) claim2_sequential_order.{0, 0}.2

/-- C10: for every item whose processor invocation succeeds but returns
`null` (with `stopOnError = false`), that result is omitted from the output
exactly as if the item had failed (the `null` sentinel is filtered out), so
`process` output never contains `null` and a run may yield fewer results
than items with no `onError` invocation for the missing ones: the output is
exactly the non-`null` successes in order and the error log lists only the
genuinely failing items.  Concretely, over items `[1, 2]` with a processor
returning `null` for item 1, `process` yields one result, one progress call
`(1, 2)`, and no `onError` call. -/
theorem claim10_null_omitted :
    (∀ (α : Type u) (β : Type v) (opts : BatchOptions)
      (f : α → Nat → Except JSThrown (Option β)) (items : List α)
      (plog : List (Nat × Nat)) (elog : List (JSThrown × α × Nat)) (res : List β),
      opts.stopOnError = false → 1 ≤ opts.batchSize → opts.concurrency = 1 →
      processSeq opts f items = (plog, elog, .ok res) →
      res = resSpec f items 0 ∧ elog = elogSpec f items 0) ∧
    processSeq ⟨2, 0, 1, false⟩
      (fun (a : Nat) (_ : Nat) =>
        (.ok (if a = 1 then none else some a) : Except JSThrown (Option Nat)))
      [1, 2] = ([(1, 2)], [], .ok [2]) := by
  constructor
  · intro α β opts f items plog elog res _hstop hbs _hconc hrun
    simp only [processSeq] at hrun
    obtain ⟨h1, h2, h3⟩ := processSeqGo_ok_eq f opts.stopOnError
      opts.batchSize items.length (createBatches opts.batchSize items) 0 [] [] []
      plog elog res hrun
    constructor
    · rw [h3, createBatches, resBatches_chunk _ _ hbs]
      simp
    · rw [h2, createBatches, elogBatches_chunk _ _ hbs]
      simp
  · have hb : createBatches 2 [1, 2] = [[1, 2]] := by
      simp [createBatches, chunk.eq_def]
    simp only [processSeq]
    rw [hb]
    rfl

/-- C10 witness: the characterization applied to the null-returning run. -/
theorem claim10_null_omitted_witness :
    [2] = resSpec (fun (a : Nat) (_ : Nat) =>
        (.ok (if a = 1 then none else some a) : Except JSThrown (Option Nat))) [1, 2] 0 ∧
    ([] : List (JSThrown × Nat × Nat)) =
      elogSpec (fun (a : Nat) (_ : Nat) =>
        (.ok (if a = 1 then none else some a) : Except JSThrown (Option Nat))) [1, 2] 0 :=
  claim10_null_omitted.{0, 0}.1 Nat Nat ⟨2, 0, 1, false⟩
    (fun a _ => .ok (if a = 1 then none else some a)) [1, 2] [(1, 2)] [] [2]
    rfl (by decide) rfl claim10_null_omitted.{0, 0}.2

/-- C8 counterexample: the claim says an `updateOptions` call made while a
`process` call is in progress has no effect on that run's indices; updating
`batchSize` from 1 to 5 during the inter-batch sleep makes the second
batch's `startIndex` jump from 1 to `1 * 5 = 5` (the processor reports
index 5 instead of 1), so the update does affect the in-progress run. -/
theorem claim8_counterexample :
    processSeqUpd ⟨1, 1, 1, false⟩
      (fun k => if k = 0 then some ⟨some 5, none, none, none⟩ else none)
      (fun (_ : Nat) (i : Nat) => (.ok (some i) : Except JSThrown (Option Nat)))
      [10, 20] = ([(1, 2), (2, 2)], [], .ok [0, 5]) ∧
    processSeqUpd ⟨1, 1, 1, false⟩ (fun _ => none)
      (fun (_ : Nat) (i : Nat) => (.ok (some i) : Except JSThrown (Option Nat)))
      [10, 20] = ([(1, 2), (2, 2)], [], .ok [0, 1]) ∧
    ([0, 5] : List Nat) ≠ [0, 1] := by
  have hb : createBatches 1 [(10 : Nat), 20] = [[10], [20]] := by
    simp [createBatches, chunk.eq_def]
  refine ⟨?_, ?_, by decide⟩
  · simp only [processSeqUpd]
    rw [hb]
    rfl
  · simp only [processSeqUpd]
    rw [hb]
    rfl

/-- C8 amended: options passed at construction are merged over the library
defaults (`batchSize` 10, `delay` 0, `concurrency` 1, `stopOnError` false)
and `updateOptions` merges new values over the current ones; the batch
partition of an in-progress run is fixed at entry and a run during which no
update occurs is unaffected, but a mid-run `updateOptions` call can affect
the in-progress run (its `startIndex` multiplier and per-item error policy
are re-read from the current options, see the counterexample); updates
fully apply to subsequent `process` calls. -/
theorem claim8_amended :
    (initOptions emptyPartial = DEFAULT_OPTIONS ∧ DEFAULT_OPTIONS = ⟨10, 0, 1, false⟩) ∧
    (∀ (cur : BatchOptions) (p : PartialBatchOptions),
      updateOptions cur p = mergeOptions cur p ∧
      (mergeOptions cur p).batchSize = p.batchSize.getD cur.batchSize ∧
      (mergeOptions cur p).delay = p.delay.getD cur.delay ∧
      (mergeOptions cur p).concurrency = p.concurrency.getD cur.concurrency ∧
      (mergeOptions cur p).stopOnError = p.stopOnError.getD cur.stopOnError) ∧
    (∀ (α : Type u) (β : Type v) (entry : BatchOptions)
      (f : α → Nat → Except JSThrown (Option β)) (items : List α),
      processSeqUpd entry (fun _ => none) f items = processSeq entry f items) := by
  refine ⟨⟨rfl, rfl⟩, fun cur p => ⟨rfl, rfl, rfl, rfl, rfl⟩, ?_⟩
  intro α β entry f items
  simp only [processSeqUpd, processSeq]
  exact processSeqUpdGo_no_upd f entry items.length
    (createBatches entry.batchSize items) 0 [] [] []

/-- C3: for every input list and every processor (which may fail on any
items), when `stopOnError = false` a `process` call never raises: the
sequential strategy always resolves with a best-effort partial result list
of length at most the input length, and every completing run of the
bounded-concurrent strategy (any settlement schedule) propagates no failure
and returns at most one result per input item. -/
theorem claim3_no_raise_no_stop :
    (∀ (α : Type u) (β : Type v) (opts : BatchOptions)
      (f : α → Nat → Except JSThrown (Option β)) (items : List α),
      opts.stopOnError = false → 1 ≤ opts.batchSize → opts.concurrency = 1 →
      ∃ plog elog res, processSeq opts f items = (plog, elog, .ok res) ∧
        res.length ≤ items.length) ∧
    (∀ (α : Type u) (β : Type v) (opts : BatchOptions)
      (f : α → Nat → Except JSThrown (Option β)) (items : List α)
      (fuel : Nat) (sched : List (List Nat)) (st : ConcSt α β) (thr : Option JSThrown),
      opts.stopOnError = false → 1 ≤ opts.batchSize → 1 ≤ opts.concurrency →
      processConc opts f items fuel sched = some (st, thr) →
      thr = none ∧ st.results.length ≤ items.length) := by
  constructor
  · intro α β opts f items hstop hbs _hconc
    simp only [processSeq, hstop]
    rw [processSeqGo_no_stop]
    refine ⟨_, _, _, rfl, ?_⟩
    simp only [List.nil_append]
    rw [createBatches, resBatches_chunk _ _ hbs]
    exact resSpec_length_le f items (0 * opts.batchSize)
  · intro α β opts f items fuel sched st thr hstop hbs hconc hrun
    simp only [processConc] at hrun
    have hinv0 : ConcInv (batchOutcome opts f (createBatches opts.batchSize items))
        (createBatches opts.batchSize items).length items.length
        ⟨0, [], [], [], [], []⟩ := by
      refine ⟨by simp, by simp, rfl, rfl, rfl, by simp, by simp, Or.inr ⟨rfl, rfl⟩⟩
    rw [hstop] at hrun
    have hthr := orchLoop_no_stop_none _ _ _ _ _ fuel _ sched st thr hrun
    subst hthr
    obtain ⟨hinv, hdone⟩ := orchLoop_inv _ false _ opts.concurrency opts.delay _ hconc
      fuel _ sched st none hinv0 hrun
    obtain ⟨hnext, hact⟩ := hdone rfl
    obtain ⟨hsperm, hres, helog, hplen⟩ := done_state_perm _ _ _ st hinv hnext hact
    refine ⟨rfl, ?_⟩
    rw [hres.length_eq, (batchOutcome_flatten_no_stop opts f items hstop hbs).1]
    exact resSpec_length_le f items 0

/-- C3 witness: a sequential and a completing concurrent run, each resolving
with at most one result per item. -/
theorem claim3_no_raise_no_stop_witness :
    (∃ plog elog res,
      processSeq (⟨2, 0, 1, false⟩ : BatchOptions)
        (fun (a : Nat) (_ : Nat) => (.ok (some a) : Except JSThrown (Option Nat)))
        [1, 2, 3] = (plog, elog, .ok res) ∧ res.length ≤ [1, 2, 3].length) ∧
    ((none : Option JSThrown) = none ∧ ([1, 2] : List Nat).length ≤ [1, 2].length) := by
  constructor
  · exact claim3_no_raise_no_stop.{0, 0}.1 Nat Nat ⟨2, 0, 1, false⟩
      (fun a _ => .ok (some a)) [1, 2, 3] rfl (by decide) rfl
  · have hrun : processConc ⟨1, 0, 2, false⟩
        (fun (a : Nat) (_ : Nat) => (.ok (some a) : Except JSThrown (Option Nat)))
        [1, 2] 3 [[0], [1]] =
        some (⟨2, [], [0, 1], [1, 2], [(1, 2), (2, 2)], []⟩, none) := by
      have hb : createBatches 1 [(1 : Nat), 2] = [[1], [2]] := by
        simp [createBatches, chunk.eq_def]
      simp only [processConc]
      rw [hb]
      simp [orchLoop, launchLoop.eq_def, settleWindow, settleMany, settleOne,
        validWindow, batchOutcome, processBatch, batchOutcomes, itemOutcome, okList,
        Except.toOption, coerceToError, List.filterMap_cons]
    exact claim3_no_raise_no_stop.{0, 0}.2 Nat Nat ⟨1, 0, 2, false⟩
      (fun a _ => .ok (some a)) [1, 2] 3 [[0], [1]]
      ⟨2, [], [0, 1], [1, 2], [(1, 2), (2, 2)], []⟩ none rfl (by decide) (by decide) hrun

/-- C7 (the claim is the source's intent, the code violates it): under
`stopOnError = true` with `concurrency = 2`, the first batch's operation
rejects, yet on the settlement schedule where batch 1 settles first and
batch 0's rejection lands while the same race is already decided, the
rejected chain is removed from `activeBatches` by its `finally` handler
before the loop races again: the rejection is never observed by the
orchestration loop and `process` resolves normally, silently dropping the
failure. -/
theorem claim7_rejection_dropped :
    (batchOutcome ⟨1, 0, 2, true⟩
      (fun (a : Nat) (i : Nat) =>
        if i = 0 then (.error (.errObj "boom") : Except JSThrown (Option Nat))
        else .ok (some a))
      [[5], [6]] 0).2 = .error (.errObj "boom") ∧
    processConc ⟨1, 0, 2, true⟩
      (fun (a : Nat) (i : Nat) =>
        if i = 0 then (.error (.errObj "boom") : Except JSThrown (Option Nat))
        else .ok (some a))
      [5, 6] 3 [[1, 0]] =
      some (⟨2, [], [1, 0], [6], [(1, 2)], [(.errObj "boom", 5, 0)]⟩, none) := by
  constructor
  · simp [batchOutcome, processBatch, batchOutcomes, itemOutcome, coerceToError]
  · have hb : createBatches 1 [(5 : Nat), 6] = [[5], [6]] := by
      simp [createBatches, chunk.eq_def]
    simp only [processConc]
    rw [hb]
    simp [orchLoop, launchLoop.eq_def, settleWindow, settleMany, settleOne,
      validWindow, batchOutcome, processBatch, batchOutcomes, itemOutcome, okList,
      Except.toOption, coerceToError, List.filterMap_cons]

/-- C4: for every input of `N` items and every processor failing on exactly
one item (succeeding on the rest) with `stopOnError = false`, `process`
returns exactly `N - 1` results and `onError` is invoked exactly once,
carrying the (coerced) error, the failing item, and its absolute index in
the original input (`batch ordinal * batchSize + offset`, which equals the
item's position); the failed item leaves no placeholder in the results.
Both execution strategies are covered; in the concurrent one this holds for
every completing settlement schedule. -/
theorem claim4_one_failure :
    (∀ (α : Type u) (β : Type v) (opts : BatchOptions)
      (f' : α → Nat → Except JSThrown β) (items : List α) (j : Nat)
      (hj : j < items.length) (e : JSThrown),
      opts.stopOnError = false → 1 ≤ opts.batchSize → opts.concurrency = 1 →
      f' (items.get ⟨j, hj⟩) j = .error e →
      (∀ (i : Nat) (hi : i < items.length), i ≠ j →
        ∃ b, f' (items.get ⟨i, hi⟩) i = .ok b) →
      ∃ plog res, processSeq opts (liftProcessor f') items =
        (plog, [(coerceToError e, items.get ⟨j, hj⟩, j)], .ok res) ∧
        res.length = items.length - 1) ∧
    (∀ (α : Type u) (β : Type v) (opts : BatchOptions)
      (f' : α → Nat → Except JSThrown β) (items : List α) (j : Nat)
      (hj : j < items.length) (e : JSThrown) (fuel : Nat) (sched : List (List Nat))
      (st : ConcSt α β) (thr : Option JSThrown),
      opts.stopOnError = false → 1 ≤ opts.batchSize → 1 ≤ opts.concurrency →
      f' (items.get ⟨j, hj⟩) j = .error e →
      (∀ (i : Nat) (hi : i < items.length), i ≠ j →
        ∃ b, f' (items.get ⟨i, hi⟩) i = .ok b) →
      processConc opts (liftProcessor f') items fuel sched = some (st, thr) →
      thr = none ∧ st.elog = [(coerceToError e, items.get ⟨j, hj⟩, j)] ∧
        st.results.length = items.length - 1) := by
  have helogspec : ∀ (α : Type u) (β : Type v) (f' : α → Nat → Except JSThrown β)
      (items : List α) (j : Nat) (hj : j < items.length) (e : JSThrown),
      f' (items.get ⟨j, hj⟩) j = .error e →
      (∀ (i : Nat) (hi : i < items.length), i ≠ j →
        ∃ b, f' (items.get ⟨i, hi⟩) i = .ok b) →
      elogSpec (liftProcessor f') items 0 =
        [(coerceToError e, items.get ⟨j, hj⟩, j)] := by
    intro α β f' items j hj e hfail hok
    have h := elogSpec_one_fail f' items 0 j hj e (by simpa using hfail)
      (fun i hi hne => by simpa using hok i hi hne)
    simpa using h
  constructor
  · intro α β opts f' items j hj e hstop hbs _hconc hfail hok
    simp only [processSeq, hstop]
    rw [processSeqGo_no_stop]
    simp only [List.nil_append]
    rw [createBatches, resBatches_chunk _ _ hbs, elogBatches_chunk _ _ hbs]
    simp only [Nat.zero_mul]
    rw [helogspec α β f' items j hj e hfail hok]
    refine ⟨_, _, rfl, ?_⟩
    have hpart := resSpec_lift_partition f' items 0
    have helen : (elogSpec (liftProcessor f') items 0).length = 1 := by
      rw [helogspec α β f' items j hj e hfail hok]
      rfl
    omega
  · intro α β opts f' items j hj e fuel sched st thr hstop hbs hconc hfail hok hrun
    simp only [processConc] at hrun
    have hinv0 : ConcInv
        (batchOutcome opts (liftProcessor f') (createBatches opts.batchSize items))
        (createBatches opts.batchSize items).length items.length
        ⟨0, [], [], [], [], []⟩ := by
      refine ⟨by simp, by simp, rfl, rfl, rfl, by simp, by simp, Or.inr ⟨rfl, rfl⟩⟩
    rw [hstop] at hrun
    have hthr := orchLoop_no_stop_none _ _ _ _ _ fuel _ sched st thr hrun
    subst hthr
    obtain ⟨hinv, hdone⟩ := orchLoop_inv _ false _ opts.concurrency opts.delay _ hconc
      fuel _ sched st none hinv0 hrun
    obtain ⟨hnext, hact⟩ := hdone rfl
    obtain ⟨hsperm, hres, helog, hplen⟩ := done_state_perm _ _ _ st hinv hnext hact
    obtain ⟨hflatres, hflatelog⟩ :=
      batchOutcome_flatten_no_stop opts (liftProcessor f') items hstop hbs
    refine ⟨rfl, ?_, ?_⟩
    · rw [hflatelog, helogspec α β f' items j hj e hfail hok] at helog
      exact List.perm_singleton.mp helog
    · rw [hres.length_eq, hflatres]
      have hpart := resSpec_lift_partition f' items 0
      have helen : (elogSpec (liftProcessor f') items 0).length = 1 := by
        rw [helogspec α β f' items j hj e hfail hok]
        rfl
      omega

/-- C4 witness: three items, the middle one failing, on both strategies. -/
theorem claim4_one_failure_witness :
    (∃ plog res,
      processSeq (⟨2, 0, 1, false⟩ : BatchOptions)
        (liftProcessor (fun (a : Nat) (i : Nat) =>
          if i = 1 then (.error (.errObj "boom") : Except JSThrown Nat) else .ok a))
        [1, 2, 3] =
        (plog, [(coerceToError (.errObj "boom"),
          ([1, 2, 3] : List Nat).get ⟨1, by decide⟩, 1)], .ok res) ∧
        res.length = [1, 2, 3].length - 1) ∧
    ((none : Option JSThrown) = none ∧
      [(JSThrown.errObj "boom", (2 : Nat), (1 : Nat))] =
        [(coerceToError (.errObj "boom"), ([1, 2, 3] : List Nat).get ⟨1, by decide⟩, 1)] ∧
      ([1, 3] : List Nat).length = [1, 2, 3].length - 1) := by
  constructor
  · exact claim4_one_failure.{0, 0}.1 Nat Nat ⟨2, 0, 1, false⟩
      (fun a i => if i = 1 then .error (.errObj "boom") else .ok a) [1, 2, 3] 1
      (by decide) (.errObj "boom") rfl (by decide) rfl rfl
      (fun i hi hne => ⟨[1, 2, 3].get ⟨i, hi⟩, by simp [hne]⟩)
  · have hrun : processConc ⟨1, 0, 2, false⟩
        (liftProcessor (fun (a : Nat) (i : Nat) =>
          if i = 1 then (.error (.errObj "boom") : Except JSThrown Nat) else .ok a))
        [1, 2, 3] 5 [[0], [1], [2]] =
        some (⟨3, [], [0, 1, 2], [1, 3], [(1, 3), (1, 3), (2, 3)],
          [(.errObj "boom", 2, 1)]⟩, none) := by
      have hb : createBatches 1 [(1 : Nat), 2, 3] = [[1], [2], [3]] := by
        simp [createBatches, chunk.eq_def]
      simp only [processConc]
      rw [hb]
      simp [orchLoop, launchLoop.eq_def, settleWindow, settleMany, settleOne,
        validWindow, batchOutcome, processBatch, batchOutcomes, itemOutcome, okList,
        liftProcessor, Except.map, Except.toOption, coerceToError, List.filterMap_cons]
    exact claim4_one_failure.{0, 0}.2 Nat Nat ⟨1, 0, 2, false⟩
      (fun a i => if i = 1 then .error (.errObj "boom") else .ok a) [1, 2, 3] 1
      (by decide) (.errObj "boom") 5 [[0], [1], [2]]
      ⟨3, [], [0, 1, 2], [1, 3], [(1, 3), (1, 3), (2, 3)], [(.errObj "boom", 2, 1)]⟩
      none rfl (by decide) (by decide) rfl
      (fun i hi hne => ⟨[1, 2, 3].get ⟨i, hi⟩, by simp [hne]⟩) hrun

/-- C6: in every run of `process`, `onProgress` is invoked exactly once per
completed batch, its cumulative-count argument is monotonically
non-decreasing, its total argument always equals the original input length,
and the cumulative count passed after the final batch equals the number of
successfully processed items (the result count, which together with the
`onError` count partitions the items).  The sequential leg covers every
resolving run under either error policy; the concurrent leg covers every
run and every settlement schedule with `stopOnError = false`, where a
"completed batch" is a settled one. -/
theorem claim6_progress_accounting :
    (∀ (α : Type u) (β : Type v) (opts : BatchOptions)
      (f' : α → Nat → Except JSThrown β) (items : List α)
      (plog : List (Nat × Nat)) (elog : List (JSThrown × α × Nat)) (res : List β),
      1 ≤ opts.batchSize → opts.concurrency = 1 →
      processSeq opts (liftProcessor f') items = (plog, elog, .ok res) →
      plog.length = (createBatches opts.batchSize items).length ∧
      (∀ p ∈ plog, p.2 = items.length) ∧
      List.Chain' (fun x y : Nat × Nat => x.1 ≤ y.1) plog ∧
      (items ≠ [] → plog.getLast? = some (res.length, items.length)) ∧
      res.length + elog.length = items.length) ∧
    (∀ (α : Type u) (β : Type v) (opts : BatchOptions)
      (f' : α → Nat → Except JSThrown β) (items : List α) (fuel : Nat)
      (sched : List (List Nat)) (st : ConcSt α β) (thr : Option JSThrown),
      1 ≤ opts.batchSize → 1 ≤ opts.concurrency →
      processConc opts (liftProcessor f') items fuel sched = some (st, thr) →
      (∀ p ∈ st.plog, p.2 = items.length) ∧
      List.Chain' (fun x y : Nat × Nat => x.1 ≤ y.1) st.plog ∧
      (opts.stopOnError = false →
        st.plog.length = st.settled.length ∧
        (thr = none →
          st.plog.length = (createBatches opts.batchSize items).length ∧
          (st.plog.getLast? = some (st.results.length, items.length) ∨
            (st.plog = [] ∧ st.results = [])) ∧
          st.results.length + st.elog.length = items.length))) := by
  constructor
  · intro α β opts f' items plog elog res hbs _hconc hrun
    simp only [processSeq] at hrun
    obtain ⟨h1, h2, h3⟩ := processSeqGo_ok_eq (liftProcessor f') opts.stopOnError
      opts.batchSize items.length (createBatches opts.batchSize items) 0 [] [] []
      plog elog res hrun
    simp only [List.nil_append, List.length_nil] at h1 h2 h3
    have hressp : res = resSpec (liftProcessor f') items 0 := by
      rw [h3, createBatches, resBatches_chunk _ _ hbs]
      simp
    have helosp : elog = elogSpec (liftProcessor f') items 0 := by
      rw [h2, createBatches, elogBatches_chunk _ _ hbs]
      simp
    refine ⟨?_, ?_, ?_, ?_, ?_⟩
    · rw [h1, plogSpec_length, batchCounts_length]
    · intro p hp
      rw [h1] at hp
      exact plogSpec_total _ _ _ p hp
    · rw [h1]
      exact plogSpec_mono _ _ _
    · intro hne
      have hbne : createBatches opts.batchSize items ≠ [] := by
        rw [createBatches, chunk_cons _ _ (by omega) hne]
        simp
      have hcsne : batchCounts (liftProcessor f') opts.batchSize
          (createBatches opts.batchSize items) 0 ≠ [] := by
        intro hnil
        have := batchCounts_length (liftProcessor f') opts.batchSize
          (createBatches opts.batchSize items) 0
        rw [hnil] at this
        exact hbne (List.length_eq_zero.mp this.symm)
      rw [h1, plogSpec_getLast _ _ _ hcsne, batchCounts_sum, ← h3, Nat.zero_add]
    · rw [hressp, helosp]
      exact resSpec_lift_partition f' items 0
  · intro α β opts f' items fuel sched st thr hbs hconc hrun
    simp only [processConc] at hrun
    have hinv0 : ConcInv
        (batchOutcome opts (liftProcessor f') (createBatches opts.batchSize items))
        (createBatches opts.batchSize items).length items.length
        ⟨0, [], [], [], [], []⟩ := by
      refine ⟨by simp, by simp, rfl, rfl, rfl, by simp, by simp, Or.inr ⟨rfl, rfl⟩⟩
    obtain ⟨hinv, hdone⟩ := orchLoop_inv _ opts.stopOnError _ opts.concurrency
      opts.delay _ hconc fuel _ sched st thr hinv0 hrun
    refine ⟨hinv.plogTotal, hinv.plogMono, ?_⟩
    intro hstop
    have hallok : ∀ j, isOkB (batchOutcome opts (liftProcessor f')
        (createBatches opts.batchSize items) j) = true := by
      intro j
      rw [batchOutcome, hstop, processBatch_no_stop]
      rfl
    refine ⟨?_, ?_⟩
    · rw [hinv.plogLen, List.filter_eq_self.mpr (fun a _ => hallok a)]
    · intro hthr
      subst hthr
      obtain ⟨hnext, hact⟩ := hdone rfl
      obtain ⟨hsperm, hres, helog, hplen⟩ := done_state_perm _ _ _ st hinv hnext hact
      obtain ⟨hflatres, hflatelog⟩ :=
        batchOutcome_flatten_no_stop opts (liftProcessor f') items hstop hbs
      refine ⟨?_, hinv.plogLast, ?_⟩
      · rw [hinv.plogLen, List.filter_eq_self.mpr (fun a _ => hallok a),
          hsperm.length_eq, List.length_range]
      · rw [hres.length_eq, hflatres, helog.length_eq, hflatelog]
        exact resSpec_lift_partition f' items 0

/-- C6 witness: progress accounting on a concrete sequential run (items
`[1, 2, 3]`, batch size 2, identity processor) and a concrete completing
concurrent run (same items, batch size 2, concurrency 2, doubling
processor). -/
theorem claim6_progress_accounting_witness :
    (([(2, 3), (3, 3)] : List (Nat × Nat)).length =
        (createBatches 2 [(1 : Nat), 2, 3]).length ∧
      (∀ p ∈ ([(2, 3), (3, 3)] : List (Nat × Nat)), p.2 = [1, 2, 3].length) ∧
      List.Chain' (fun x y : Nat × Nat => x.1 ≤ y.1) [(2, 3), (3, 3)] ∧
      (([1, 2, 3] : List Nat) ≠ [] →
        ([(2, 3), (3, 3)] : List (Nat × Nat)).getLast? =
          some (([1, 2, 3] : List Nat).length, [1, 2, 3].length)) ∧
      ([1, 2, 3] : List Nat).length + ([] : List (JSThrown × Nat × Nat)).length =
        [1, 2, 3].length) ∧
    ((none : Option JSThrown) = none →
      ([(2, 3), (3, 3)] : List (Nat × Nat)).length =
        (createBatches 2 [(1 : Nat), 2, 3]).length ∧
      (([(2, 3), (3, 3)] : List (Nat × Nat)).getLast? =
          some (([2, 4, 6] : List Nat).length, [1, 2, 3].length) ∨
        (([(2, 3), (3, 3)] : List (Nat × Nat)) = [] ∧ ([2, 4, 6] : List Nat) = [])) ∧
      ([2, 4, 6] : List Nat).length + ([] : List (JSThrown × Nat × Nat)).length =
        [1, 2, 3].length) := by
  constructor
  · have hrun : processSeq (⟨2, 0, 1, false⟩ : BatchOptions)
        (liftProcessor (fun (a : Nat) (_ : Nat) => (.ok a : Except JSThrown Nat)))
        [1, 2, 3] = ([(2, 3), (3, 3)], [], .ok [1, 2, 3]) := by
      have hb : createBatches 2 [(1 : Nat), 2, 3] = [[1, 2], [3]] := by
        simp [createBatches, chunk.eq_def]
      simp only [processSeq]
      rw [hb]
      rfl
    exact claim6_progress_accounting.{0, 0}.1 Nat Nat ⟨2, 0, 1, false⟩
      (fun a _ => .ok a) [1, 2, 3] [(2, 3), (3, 3)] [] [1, 2, 3]
      (by decide) rfl hrun
  · have hrun : processConc ⟨2, 0, 2, false⟩
        (liftProcessor (fun (a : Nat) (_ : Nat) => (.ok (a * 2) : Except JSThrown Nat)))
        [1, 2, 3] 5 [[0], [1]] =
        some (⟨2, [], [0, 1], [2, 4, 6], [(2, 3), (3, 3)], []⟩, none) := by
      have hb : createBatches 2 [(1 : Nat), 2, 3] = [[1, 2], [3]] := by
        simp [createBatches, chunk.eq_def]
      simp only [processConc]
      rw [hb]
      simp [orchLoop, launchLoop.eq_def, settleWindow, settleMany, settleOne,
        validWindow, batchOutcome, processBatch, batchOutcomes, itemOutcome, okList,
        liftProcessor, Except.map, Except.toOption, coerceToError, List.filterMap_cons]
    exact ((claim6_progress_accounting.{0, 0}.2 Nat Nat ⟨2, 0, 2, false⟩
      (fun a _ => .ok (a * 2)) [1, 2, 3] 5 [[0], [1]]
      ⟨2, [], [0, 1], [2, 4, 6], [(2, 3), (3, 3)], []⟩ none
      (by decide) (by decide) hrun).2.2 rfl).2

end FlexibleBatches
